import Mathlib

/-!
Move-to-front decoder of `compress/bzip2` (`move_to_front.go`).

A shallow embedding of `moveToFrontDecoder`, its two constructors and its two
methods, followed by the properties proved about them.

Modelling conventions:
* `[]byte` and `[]uint8` are `List Nat`; a `uint8(e)` / `byte(e)` conversion is
  written `e % 256`.
* `int` arguments are `Int`.
* A Go run-time panic is an `Except.error`; every slice read and write is
  bounds-checked exactly where the Go code indexes.
* Methods with a pointer receiver return the receiver's state after the call.
-/

namespace MTF

/-- The fatal errors the Go code can raise. -/
inductive Panic where
  | tooManySymbols
  | rangeTooLarge
  | negativeLen
  | indexOutOfRange
  deriving DecidableEq, Repr

/-- The struct `moveToFrontDecoder`. -/
structure moveToFrontDecoder where
  symbols : List Nat
  next : List Nat
  prev : List Nat
  head : Nat
  deriving DecidableEq, Repr

/-- A slice read `xs[i]`. -/
def readAt (xs : List Nat) (i : Nat) : Except Panic Nat :=
  match xs[i]? with
  | some v => .ok v
  | none => .error .indexOutOfRange

/-- A slice write `xs[i] = v`. -/
def writeAt (xs : List Nat) (i v : Nat) : Except Panic (List Nat) :=
  if i < xs.length then .ok (xs.set i v) else .error .indexOutOfRange

/-- The loop of `threadLinkedList`: `k` iterations remain, the loop variable is `i`. -/
def threadLoop : Nat → Nat → List Nat → List Nat → Except Panic (List Nat × List Nat)
  | 0, _, nx, pv => .ok (nx, pv)
  | k + 1, i, nx, pv => do
    let nx1 ← writeAt nx i ((i + 1) % 256)
    let pv1 ← writeAt pv (i + 1) (i % 256)
    threadLoop k (i + 1) nx1 pv1

/-- The method `threadLinkedList`. -/
def threadLinkedList (m : moveToFrontDecoder) : Except Panic moveToFrontDecoder :=
  if m.symbols.length = 0 then .ok m
  else do
    let pv0 ← writeAt m.prev 0 ((m.symbols.length - 1) % 256)
    let (nx1, pv1) ← threadLoop (m.symbols.length - 1) 0 m.next pv0
    let nx2 ← writeAt nx1 (m.symbols.length - 1) 0
    pure { m with next := nx2, prev := pv1 }

/-- The constructor `newMTFDecoder`. -/
def newMTFDecoder (symbols : List Nat) : Except Panic moveToFrontDecoder :=
  if symbols.length > 256 then .error .tooManySymbols
  else
    threadLinkedList
      { symbols := symbols
        next := List.replicate symbols.length 0
        prev := List.replicate symbols.length 0
        head := 0 }

/-- The loop `for i := 0; i < n; i++ { m.symbols[i] = byte(i) }`:
`k` iterations remain, the loop variable is `i`. -/
def fillLoop : Nat → Nat → List Nat → Except Panic (List Nat)
  | 0, _, sy => .ok sy
  | k + 1, i, sy => do
    let sy1 ← writeAt sy i (i % 256)
    fillLoop k (i + 1) sy1

/-- The constructor `newMTFDecoderWithRange`. -/
def newMTFDecoderWithRange (n : Int) : Except Panic moveToFrontDecoder :=
  if n > 256 then .error .rangeTooLarge
  else if n < 0 then .error .negativeLen
  else do
    let sy ← fillLoop n.toNat 0 (List.replicate n.toNat 0)
    threadLinkedList
      { symbols := sy
        next := List.replicate n.toNat 0
        prev := List.replicate n.toNat 0
        head := 0 }

/-- The loop `for j := 0; j < n; j++ { i = m.next[i] }` run for `j` iterations. -/
def walkNext (next : List Nat) : Nat → Nat → Except Panic Nat
  | 0, i => .ok i
  | j + 1, i => do
    let i1 ← readAt next i
    walkNext next j i1

/-- The method `Decode`: the byte returned and the decoder afterwards. -/
def Decode (m : moveToFrontDecoder) (n : Int) : Except Panic (Nat × moveToFrontDecoder) :=
  if n = 0 then do
    let b ← readAt m.symbols m.head
    pure (b, m)
  else do
    let i ← walkNext m.next n.toNat m.head
    let b ← readAt m.symbols i
    -- m.next[m.prev[i]] = m.next[i]
    let pi ← readAt m.prev i
    let ni ← readAt m.next i
    let next1 ← writeAt m.next pi ni
    -- m.prev[m.next[i]] = m.prev[i]
    let ni1 ← readAt next1 i
    let pi1 ← readAt m.prev i
    let prev1 ← writeAt m.prev ni1 pi1
    -- m.next[i] = m.head
    let next2 ← writeAt next1 i m.head
    -- m.prev[i] = m.prev[m.head]
    let ph ← readAt prev1 m.head
    let prev2 ← writeAt prev1 i ph
    -- m.next[m.prev[m.head]] = i
    let ph2 ← readAt prev2 m.head
    let next3 ← writeAt next2 ph2 i
    -- m.prev[m.head] = i
    let prev3 ← writeAt prev2 m.head i
    -- m.head = i
    pure (b, { m with next := next3, prev := prev3, head := i })

/-- The method `First`: the byte returned and the (untouched) decoder. -/
def First (m : moveToFrontDecoder) : Except Panic (Nat × moveToFrontDecoder) := do
  let b ← readAt m.symbols m.head
  pure (b, m)

/-- Runs `Decode` on each rank in turn, collecting the bytes returned. -/
def decodeAll : moveToFrontDecoder → List Int → Except Panic (List Nat × moveToFrontDecoder)
  | m, [] => .ok ([], m)
  | m, r :: rs => do
    let (b, m1) ← Decode m r
    let (bs, m2) ← decodeAll m1 rs
    pure (b :: bs, m2)

/-! ## Specification-side notions -/

/-- The positions met when following `next` from `head`, one per symbol. -/
def posOrder (m : moveToFrontDecoder) : List Nat :=
  List.iterate (fun i => m.next.getD i 0) m.head m.symbols.length

/-- The recency order: the symbols read from `head` along `next`. -/
def order (m : moveToFrontDecoder) : List Nat :=
  (posOrder m).map (fun i => m.symbols.getD i 0)

/-- A well-formed decoder: the three slices have the same length `n` with
`1 ≤ n ≤ 256`, `head` is a position, `next` maps positions to positions, the
`n` positions met from `head` along `next` are pairwise distinct (so `next` is
one `n`-cycle), and `prev` undoes `next`. -/
def WellFormed (m : moveToFrontDecoder) : Prop :=
  1 ≤ m.symbols.length ∧ m.symbols.length ≤ 256 ∧
  m.next.length = m.symbols.length ∧ m.prev.length = m.symbols.length ∧
  m.head < m.symbols.length ∧
  (∀ i, i < m.symbols.length → m.next.getD i 0 < m.symbols.length) ∧
  (posOrder m).Nodup ∧
  (∀ i, i < m.symbols.length → m.prev.getD (m.next.getD i 0) 0 = i)

instance (m : moveToFrontDecoder) : Decidable (WellFormed m) := by
  unfold WellFormed; infer_instance

/-- The six writes of the general path of `Decode` at the position `i`, without
bounds checks. -/
def relink (m : moveToFrontDecoder) (i : Nat) : moveToFrontDecoder :=
  let next1 := m.next.set (m.prev.getD i 0) (m.next.getD i 0)
  let prev1 := m.prev.set (next1.getD i 0) (m.prev.getD i 0)
  let next2 := next1.set i m.head
  let prev2 := prev1.set i (prev1.getD m.head 0)
  let next3 := next2.set (prev2.getD m.head 0) i
  let prev3 := prev2.set m.head i
  { m with next := next3, prev := prev3, head := i }

/-- A slice of length `n` all of whose entries are positions below `n`. -/
def Bounded (xs : List Nat) (n : Nat) : Prop :=
  xs.length = n ∧ ∀ i, i < n → xs.getD i 0 < n

/-- The list `l` enumerates the positions of `m` in recency order: it starts at
`head`, lists every position once, and `next` / `prev` step forwards /
backwards along it, cyclically. -/
structure Cyc (m : moveToFrontDecoder) (l : List Nat) : Prop where
  pos : 0 < m.symbols.length
  len_next : m.next.length = m.symbols.length
  len_prev : m.prev.length = m.symbols.length
  len_l : l.length = m.symbols.length
  nodup : l.Nodup
  lt : ∀ k, k < m.symbols.length → l.getD k 0 < m.symbols.length
  head_eq : l.getD 0 0 = m.head
  nx : ∀ k, k < m.symbols.length →
    m.next.getD (l.getD k 0) 0 = l.getD (if k + 1 = m.symbols.length then 0 else k + 1) 0
  pv : ∀ k, k < m.symbols.length →
    m.prev.getD (l.getD k 0) 0 = l.getD (if k = 0 then m.symbols.length - 1 else k - 1) 0

/-- The reference move-to-front encoder of the round-trip law, written from the
specification: it emits the current index of each byte in the list and then
moves that byte to the front. -/
def mtfEncode : List Nat → List Nat → List Nat
  | _, [] => []
  | l, b :: bs => l.indexOf b :: mtfEncode (b :: l.erase b) bs

/-- The `next` slice of a freshly threaded list of `n` positions. -/
def initNext (n : Nat) : List Nat :=
  (List.range n).map (fun i => if i + 1 = n then 0 else i + 1)

/-- The `prev` slice of a freshly threaded list of `n` positions. -/
def initPrev (n : Nat) : List Nat :=
  (List.range n).map (fun i => if i = 0 then n - 1 else i - 1)

/-- A three-symbol decoder as `newMTFDecoder` builds it, used in examples. -/
def abc : moveToFrontDecoder :=
  { symbols := [10, 20, 30], next := [1, 2, 0], prev := [2, 0, 1], head := 0 }

/-- The decoder over the empty alphabet. -/
def emptyDecoder : moveToFrontDecoder :=
  { symbols := [], next := [], prev := [], head := 0 }

/-- Invariant (i): `head` and every link are positions below `n`. -/
def LinksInRange (m : moveToFrontDecoder) : Prop :=
  m.head < m.symbols.length ∧
  ∀ i, i < m.symbols.length →
    m.next.getD i 0 < m.symbols.length ∧ m.prev.getD i 0 < m.symbols.length

/-- Invariant (ii): `next[prev[i]] = i` and `prev[next[i]] = i` at every position. -/
def LinksInverse (m : moveToFrontDecoder) : Prop :=
  ∀ i, i < m.symbols.length →
    m.next.getD (m.prev.getD i 0) 0 = i ∧ m.prev.getD (m.next.getD i 0) 0 = i

/-- Invariant (iii): following `next` from any position visits `n` pairwise
distinct positions, hence all of them once, and is then back at the start. -/
def SingleCycle (m : moveToFrontDecoder) : Prop :=
  ∀ i, i < m.symbols.length →
    (List.iterate (fun j => m.next.getD j 0) i m.symbols.length).Nodup ∧
    (fun j => m.next.getD j 0)^[m.symbols.length] i = i

/-- The list invariant: the three slices have one length and (i)-(iii) hold. -/
def ListInv (m : moveToFrontDecoder) : Prop :=
  m.next.length = m.symbols.length ∧ m.prev.length = m.symbols.length ∧
  LinksInRange m ∧ LinksInverse m ∧ SingleCycle m

instance (m : moveToFrontDecoder) : Decidable (LinksInRange m) := by
  unfold LinksInRange; infer_instance

instance (m : moveToFrontDecoder) : Decidable (LinksInverse m) := by
  unfold LinksInverse; infer_instance

instance (m : moveToFrontDecoder) : Decidable (SingleCycle m) := by
  unfold SingleCycle; infer_instance

instance (m : moveToFrontDecoder) : Decidable (ListInv m) := by
  unfold ListInv; infer_instance

/-! ## Basic facts about slice reads and writes -/

theorem readAt_ok {xs : List Nat} {i : Nat} (h : i < xs.length) :
    readAt xs i = .ok (xs.getD i 0) := by
  simp [readAt, List.getD, List.getElem?_eq_getElem h]

theorem readAt_err {xs : List Nat} {i : Nat} (h : xs.length ≤ i) :
    readAt xs i = .error .indexOutOfRange := by
  simp [readAt, List.getElem?_eq_none h]

theorem writeAt_ok {xs : List Nat} {i : Nat} (v : Nat) (h : i < xs.length) :
    writeAt xs i v = .ok (xs.set i v) := by
  simp [writeAt, h]

theorem getD_set_eq_update {xs : List Nat} {i : Nat} (v j : Nat) (h : i < xs.length) :
    (xs.set i v).getD j 0 = Function.update (fun k => xs.getD k 0) i v j := by
  simp only [List.getD_eq_getElem?_getD, List.getElem?_set, Function.update_apply]
  by_cases hij : i = j
  · subst hij; simp [h]
  · have : ¬ j = i := fun e => hij e.symm
    simp [hij, this]

theorem Bounded.set {xs : List Nat} {n a v : Nat} (hb : Bounded xs n) (ha : a < n)
    (hv : v < n) : Bounded (xs.set a v) n := by
  refine ⟨by simpa using hb.1, fun i hi => ?_⟩
  rw [getD_set_eq_update _ _ (by rw [hb.1]; exact ha), Function.update_apply]
  split
  · exact hv
  · exact hb.2 i hi

theorem walkNext_ok {nx : List Nat} {n : Nat} (hb : Bounded nx n) :
    ∀ (r i : Nat), i < n →
      walkNext nx r i = .ok ((fun k => nx.getD k 0)^[r] i) ∧
        (fun k => nx.getD k 0)^[r] i < n := by
  intro r
  induction r with
  | zero => intro i hi; exact ⟨rfl, hi⟩
  | succ r ih =>
    intro i hi
    have h1 : readAt nx i = .ok (nx.getD i 0) := readAt_ok (by rw [hb.1]; exact hi)
    have h2 := ih (nx.getD i 0) (hb.2 i hi)
    refine ⟨?_, ?_⟩
    · simp only [walkNext, h1, bind, Except.bind, Function.iterate_succ, Function.comp_apply]
      exact h2.1
    · simpa only [Function.iterate_succ, Function.comp_apply] using h2.2

/-- With in-range links, the general path of `Decode` never panics: it walks
`next` and performs the six writes of `relink`. -/
theorem Decode_eq_relink (m : moveToFrontDecoder) (r : Int) (hr : r ≠ 0)
    (hnx : Bounded m.next m.symbols.length) (hpv : Bounded m.prev m.symbols.length)
    (hh : m.head < m.symbols.length) :
    Decode m r =
      .ok (m.symbols.getD ((fun k => m.next.getD k 0)^[r.toNat] m.head) 0,
           relink m ((fun k => m.next.getD k 0)^[r.toNat] m.head)) := by
  obtain ⟨hw, hi⟩ := walkNext_ok hnx r.toNat m.head hh
  generalize (fun k => m.next.getD k 0)^[r.toNat] m.head = i at hw hi
  have hln := hnx.1
  have hlp := hpv.1
  have b1 : Bounded (m.next.set (m.prev.getD i 0) (m.next.getD i 0)) m.symbols.length :=
    hnx.set (hpv.2 i hi) (hnx.2 i hi)
  have b2 : Bounded (m.prev.set ((m.next.set (m.prev.getD i 0) (m.next.getD i 0)).getD i 0)
      (m.prev.getD i 0)) m.symbols.length := hpv.set (b1.2 i hi) (hpv.2 i hi)
  have b3 := b1.set hi hh
  have b4 := b2.set hi (b2.2 _ hh)
  simp only [Decode, if_neg hr, hw, bind, Except.bind]
  rw [readAt_ok hi]
  simp only []
  have rp : readAt m.prev i = .ok (m.prev.getD i 0) := readAt_ok (by rw [hlp]; exact hi)
  have rn : readAt m.next i = .ok (m.next.getD i 0) := readAt_ok (by rw [hln]; exact hi)
  rw [rp, rn]
  simp only []
  rw [writeAt_ok _ (by rw [hln]; exact hpv.2 i hi)]
  simp only []
  rw [readAt_ok (by rw [b1.1]; exact hi)]
  simp only []
  rw [writeAt_ok _ (by rw [hlp]; exact b1.2 i hi)]
  simp only []
  rw [writeAt_ok _ (by rw [b1.1]; exact hi)]
  simp only []
  rw [readAt_ok (by rw [b2.1]; exact hh)]
  simp only []
  rw [writeAt_ok _ (by rw [b2.1]; exact hi)]
  simp only []
  rw [readAt_ok (by rw [b4.1]; exact hh)]
  simp only []
  rw [writeAt_ok _ (by rw [b3.1]; exact b4.2 _ hh)]
  simp only []
  rw [writeAt_ok _ (by rw [b4.1]; exact hh)]
  rfl

/-! ## The pointer surgery, on functions -/

/-- The six writes of `Decode`, seen on the link functions, turn the cycle
`p 0, p 1, …, p (n-1)` into `p r, p 0, …, p (r-1), p (r+1), …, p (n-1)`. -/
theorem relink_fun (n r : Nat) (p nx pv : Nat → Nat)
    (hr0 : 0 < r) (hrn : r < n)
    (hinj : ∀ a b, a < n → b < n → (p a = p b ↔ a = b))
    (hnx : ∀ k, k < n → nx (p k) = p (if k + 1 = n then 0 else k + 1))
    (hpv : ∀ k, k < n → pv (p k) = p (if k = 0 then n - 1 else k - 1)) :
    let i := p r
    let hd := p 0
    let next1 := Function.update nx (pv i) (nx i)
    let prev1 := Function.update pv (next1 i) (pv i)
    let next2 := Function.update next1 i hd
    let prev2 := Function.update prev1 i (prev1 hd)
    let next3 := Function.update next2 (prev2 hd) i
    let prev3 := Function.update prev2 hd i
    ∀ j, j < n →
      next3 (p j) = p (if j = (if r + 1 = n then r - 1 else n - 1) then r
                        else if j = r then 0
                        else if j = r - 1 then (if r + 1 = n then 0 else r + 1)
                        else if j + 1 = n then 0 else j + 1) ∧
      prev3 (p j) = p (if j = 0 then r
                        else if j = r then (if r + 1 = n then r - 1 else n - 1)
                        else if j = (if r + 1 = n then 0 else r + 1) then r - 1
                        else if j = 0 then n - 1 else j - 1) := by
  intro i hd next1 prev1 next2 prev2 next3 prev3 j hj
  have hr0' : ¬ r = 0 := by omega
  have h1 : ¬ (r - 1 = r) := by omega
  have h1' : ¬ (r = r - 1) := by omega
  have h2 : ¬ (0 = r) := by omega
  by_cases hc : r + 1 = n
  · simp (disch := omega) only [next3, prev3, next2, prev2, next1, prev1, i, hd,
      Function.update_apply, hinj, hnx, hpv, hc, if_true, if_false, hr0', h1, h1', h2, ite_self,
      eq_self_iff_true]
    constructor
    · split_ifs <;> rfl
    · split_ifs <;> rfl
  · have h3 : ¬ (0 = r + 1) := by omega
    have h4 : ¬ (n - 1 = r) := by omega
    have h5 : ¬ (n - 1 = r - 1) := by omega
    have h6 : ¬ (n = 0) := by omega
    have h7 : ¬ (r = r + 1) := by omega
    have h8 : ¬ (r + 1 = r) := by omega
    simp (disch := omega) only [next3, prev3, next2, prev2, next1, prev1, i, hd,
      Function.update_apply, hinj, hnx, hpv, hc, if_true, if_false, hr0', h1, h1', h2, h3, h4,
      h5, h6, h7, h8, ite_self, eq_self_iff_true]
    constructor
    · split_ifs <;> rfl
    · split_ifs <;> rfl

/-- The links of `relink m i`, read as functions, are the six updates of the
link functions of `m`. -/
theorem relink_getD (m : moveToFrontDecoder) (i : Nat)
    (hnx : Bounded m.next m.symbols.length) (hpv : Bounded m.prev m.symbols.length)
    (hh : m.head < m.symbols.length) (hi : i < m.symbols.length)
    (hd : Nat) (hhd : hd = m.head) :
    let nx := fun k => m.next.getD k 0
    let pv := fun k => m.prev.getD k 0
    let next1 := Function.update nx (pv i) (nx i)
    let prev1 := Function.update pv (next1 i) (pv i)
    let next2 := Function.update next1 i hd
    let prev2 := Function.update prev1 i (prev1 hd)
    let next3 := Function.update next2 (prev2 hd) i
    let prev3 := Function.update prev2 hd i
    (∀ j, (relink m i).next.getD j 0 = next3 j) ∧
      (∀ j, (relink m i).prev.getD j 0 = prev3 j) ∧
      Bounded (relink m i).next m.symbols.length ∧
      Bounded (relink m i).prev m.symbols.length := by
  subst hhd
  intro nx pv next1 prev1 next2 prev2 next3 prev3
  have hln := hnx.1
  have hlp := hpv.1
  have b1 : Bounded (m.next.set (m.prev.getD i 0) (m.next.getD i 0)) m.symbols.length :=
    hnx.set (hpv.2 i hi) (hnx.2 i hi)
  have f1 : (fun k => (m.next.set (m.prev.getD i 0) (m.next.getD i 0)).getD k 0) = next1 :=
    funext fun k => getD_set_eq_update _ _ (by rw [hln]; exact hpv.2 i hi)
  have b2 : Bounded (m.prev.set ((m.next.set (m.prev.getD i 0) (m.next.getD i 0)).getD i 0)
      (m.prev.getD i 0)) m.symbols.length := hpv.set (b1.2 i hi) (hpv.2 i hi)
  have f2 : (fun k => (m.prev.set ((m.next.set (m.prev.getD i 0) (m.next.getD i 0)).getD i 0)
      (m.prev.getD i 0)).getD k 0) = prev1 := by
    funext k
    rw [getD_set_eq_update _ _ (by rw [hlp]; exact b1.2 i hi)]
    show Function.update pv _ (pv i) k = Function.update pv (next1 i) (pv i) k
    rw [← f1]
  have b3 := b1.set hi hh
  have f3 : (fun k => ((m.next.set (m.prev.getD i 0) (m.next.getD i 0)).set i m.head).getD k 0)
      = next2 := by
    funext k
    rw [getD_set_eq_update _ _ (by rw [b1.1]; exact hi), f1]
  have b4 := b2.set hi (b2.2 _ hh)
  have f4 : (fun k => ((m.prev.set ((m.next.set (m.prev.getD i 0) (m.next.getD i 0)).getD i 0)
      (m.prev.getD i 0)).set i ((m.prev.set ((m.next.set (m.prev.getD i 0)
      (m.next.getD i 0)).getD i 0) (m.prev.getD i 0)).getD m.head 0)).getD k 0) = prev2 := by
    funext k
    rw [getD_set_eq_update _ _ (by rw [b2.1]; exact hi), f2]
    show Function.update prev1 i _ k = Function.update prev1 i (prev1 m.head) k
    rw [← f2]
  have b5 := b3.set (b4.2 _ hh) hi
  have b6 := b4.set hh hi
  refine ⟨fun j => ?_, fun j => ?_, b5, b6⟩
  · show (List.set _ _ _).getD j 0 = _
    rw [getD_set_eq_update _ _ (by rw [b3.1]; exact b4.2 _ hh), f3]
    show Function.update next2 _ i j = Function.update next2 (prev2 m.head) i j
    rw [← f4]
  · show (List.set _ _ _).getD j 0 = _
    rw [getD_set_eq_update _ _ (by rw [b4.1]; exact hh), f4]

/-! ## Facts about position lists -/

theorem getD_inj_iff {l : List Nat} (hnd : l.Nodup) {a b : Nat} (ha : a < l.length)
    (hb : b < l.length) : l.getD a 0 = l.getD b 0 ↔ a = b := by
  rw [List.getD_eq_getElem _ _ ha, List.getD_eq_getElem _ _ hb]
  exact hnd.getElem_inj_iff

theorem exists_getD_of_full {l : List Nat} {n : Nat} (hnd : l.Nodup) (hlen : l.length = n)
    (hlt : ∀ k, k < n → l.getD k 0 < n) :
    ∀ i, i < n → ∃ k, k < n ∧ l.getD k 0 = i := by
  have hsub : l ⊆ List.range n := by
    intro x hx
    obtain ⟨k, hk, rfl⟩ := List.mem_iff_getElem.mp hx
    rw [List.mem_range, ← List.getD_eq_getElem _ 0 hk]
    exact hlt k (hlen ▸ hk)
  have hperm : l.Perm (List.range n) :=
    (List.subperm_of_subset hnd hsub).perm_of_length_le (by simp [hlen])
  intro i hi
  have hmem : i ∈ l := hperm.mem_iff.mpr (List.mem_range.mpr hi)
  obtain ⟨k, hk, hki⟩ := List.mem_iff_getElem.mp hmem
  exact ⟨k, hlen ▸ hk, by rw [List.getD_eq_getElem _ 0 hk]; exact hki⟩

theorem getD_cons_eraseIdx (l : List Nat) (r k : Nat) :
    (l.getD r 0 :: l.eraseIdx r).getD k 0 =
      l.getD (if k = 0 then r else if k ≤ r then k - 1 else k) 0 := by
  cases k with
  | zero => simp
  | succ k =>
    simp only [List.getD_eq_getElem?_getD, List.getElem?_cons_succ, List.getElem?_eraseIdx]
    by_cases h : k < r
    · have h2 : k + 1 ≤ r := h
      simp [h, h2]
    · have h2 : ¬ k + 1 ≤ r := by omega
      simp [h, h2]

theorem cons_eraseIdx_perm (l : List Nat) (r : Nat) (hr : r < l.length) (hnd : l.Nodup) :
    (l.getD r 0 :: l.eraseIdx r).Perm l := by
  rw [List.getD_eq_getElem _ 0 hr, ← hnd.erase_getElem r hr]
  exact (List.perm_cons_erase (List.getElem_mem _)).symm

/-- Index bookkeeping for `next` after the move to the front. -/
theorem idx_next (n r k : Nat) (hr0 : 0 < r) (hrn : r < n) (hk : k < n) :
    (if (if k = 0 then r else if k ≤ r then k - 1 else k) =
          (if r + 1 = n then r - 1 else n - 1) then r
      else if (if k = 0 then r else if k ≤ r then k - 1 else k) = r then 0
      else if (if k = 0 then r else if k ≤ r then k - 1 else k) = r - 1 then
        (if r + 1 = n then 0 else r + 1)
      else if (if k = 0 then r else if k ≤ r then k - 1 else k) + 1 = n then 0
      else (if k = 0 then r else if k ≤ r then k - 1 else k) + 1) =
    (if (if k + 1 = n then 0 else k + 1) = 0 then r
      else if (if k + 1 = n then 0 else k + 1) ≤ r then (if k + 1 = n then 0 else k + 1) - 1
      else (if k + 1 = n then 0 else k + 1)) := by
  by_cases h1 : k = 0 <;> by_cases h2 : k ≤ r <;> by_cases h3 : r + 1 = n <;>
    by_cases h4 : k + 1 = n <;>
    simp only [h1, h2, h3, h4, if_true, if_false] <;> split_ifs <;> first | omega | contradiction

/-- Index bookkeeping for `prev` after the move to the front. -/
theorem idx_prev (n r k : Nat) (hr0 : 0 < r) (hrn : r < n) (hk : k < n) :
    (if (if k = 0 then r else if k ≤ r then k - 1 else k) = 0 then r
      else if (if k = 0 then r else if k ≤ r then k - 1 else k) = r then
        (if r + 1 = n then r - 1 else n - 1)
      else if (if k = 0 then r else if k ≤ r then k - 1 else k) =
          (if r + 1 = n then 0 else r + 1) then r - 1
      else if (if k = 0 then r else if k ≤ r then k - 1 else k) = 0 then n - 1
      else (if k = 0 then r else if k ≤ r then k - 1 else k) - 1) =
    (if (if k = 0 then n - 1 else k - 1) = 0 then r
      else if (if k = 0 then n - 1 else k - 1) ≤ r then (if k = 0 then n - 1 else k - 1) - 1
      else (if k = 0 then n - 1 else k - 1)) := by
  by_cases h1 : k = 0 <;> by_cases h2 : k ≤ r <;> by_cases h3 : r + 1 = n <;>
    simp only [h1, h2, h3, if_true, if_false] <;> split_ifs <;> omega

/-! ## The cycle invariant -/

theorem Cyc.inj {m : moveToFrontDecoder} {l : List Nat} (h : Cyc m l) (a b : Nat)
    (ha : a < m.symbols.length) (hb : b < m.symbols.length) :
    l.getD a 0 = l.getD b 0 ↔ a = b :=
  getD_inj_iff h.nodup (h.len_l ▸ ha) (h.len_l ▸ hb)

theorem Cyc.bounded_next {m : moveToFrontDecoder} {l : List Nat} (h : Cyc m l) :
    Bounded m.next m.symbols.length := by
  refine ⟨h.len_next, fun i hi => ?_⟩
  obtain ⟨k, hk, rfl⟩ := exists_getD_of_full h.nodup h.len_l h.lt i hi
  rw [h.nx k hk]
  apply h.lt
  split <;> omega

theorem Cyc.bounded_prev {m : moveToFrontDecoder} {l : List Nat} (h : Cyc m l) :
    Bounded m.prev m.symbols.length := by
  refine ⟨h.len_prev, fun i hi => ?_⟩
  obtain ⟨k, hk, rfl⟩ := exists_getD_of_full h.nodup h.len_l h.lt i hi
  rw [h.pv k hk]
  apply h.lt
  split <;> omega

theorem Cyc.head_lt {m : moveToFrontDecoder} {l : List Nat} (h : Cyc m l) :
    m.head < m.symbols.length := by
  rw [← h.head_eq]; exact h.lt 0 h.pos

/-- Walking `next` for `r` steps from the `k`-th position of the cycle lands on
position `(k + r) mod n` of the cycle. -/
theorem Cyc.iterate_next {m : moveToFrontDecoder} {l : List Nat} (h : Cyc m l) :
    ∀ (r k : Nat), k < m.symbols.length →
      (fun j => m.next.getD j 0)^[r] (l.getD k 0) = l.getD ((k + r) % m.symbols.length) 0 := by
  intro r
  induction r with
  | zero => intro k hk; simp [Nat.mod_eq_of_lt hk]
  | succ r ih =>
    intro k hk
    rw [Function.iterate_succ, Function.comp_apply]
    show (fun j => m.next.getD j 0)^[r] (m.next.getD (l.getD k 0) 0) = _
    rw [h.nx k hk]
    by_cases hc : k + 1 = m.symbols.length
    · rw [if_pos hc, ih 0 h.pos]
      congr 1
      rw [← hc]
      have : k + (r + 1) = (0 + r) + (k + 1) := by omega
      rw [this, Nat.add_mod_right]
    · rw [if_neg hc, ih (k + 1) (by omega)]
      congr 2
      omega

/-- Moving the position at rank `r` to the front keeps the cycle invariant, for
the list with that position moved to the front. -/
theorem Cyc.relink {m : moveToFrontDecoder} {l : List Nat} (h : Cyc m l) (r : Nat)
    (hr0 : 0 < r) (hrn : r < m.symbols.length) :
    Cyc (relink m (l.getD r 0)) (l.getD r 0 :: l.eraseIdx r) := by
  have hrl : r < l.length := h.len_l ▸ hrn
  obtain ⟨e1, e2, b1, b2⟩ := relink_getD m (l.getD r 0) h.bounded_next h.bounded_prev
    h.head_lt (h.lt r hrn) (l.getD 0 0) h.head_eq
  have key := relink_fun m.symbols.length r (fun k => l.getD k 0) (fun k => m.next.getD k 0)
    (fun k => m.prev.getD k 0) hr0 hrn h.inj h.nx h.pv
  have hsym : (MTF.relink m (l.getD r 0)).symbols = m.symbols := rfl
  refine ⟨h.pos, b1.1, b2.1, ?_, ?_, ?_, ?_, ?_, ?_⟩
  · rw [hsym, List.length_cons, List.length_eraseIdx_add_one hrl, h.len_l]
  · exact (cons_eraseIdx_perm l r hrl h.nodup).nodup_iff.mpr h.nodup
  · intro k hk
    rw [getD_cons_eraseIdx l r k]
    apply h.lt
    rw [hsym] at hk
    split_ifs <;> omega
  · rw [getD_cons_eraseIdx l r 0]; rfl
  · intro k hk
    rw [hsym] at hk ⊢
    rw [getD_cons_eraseIdx l r k, getD_cons_eraseIdx l r _]
    have hf : (if k = 0 then r else if k ≤ r then k - 1 else k) < m.symbols.length := by
      split_ifs <;> omega
    refine (e1 _).trans ((key _ hf).1.trans ?_)
    congr 1
    exact idx_next _ r k hr0 hrn hk
  · intro k hk
    rw [hsym] at hk ⊢
    rw [getD_cons_eraseIdx l r k, getD_cons_eraseIdx l r _]
    have hf : (if k = 0 then r else if k ≤ r then k - 1 else k) < m.symbols.length := by
      split_ifs <;> omega
    refine (e2 _).trans ((key _ hf).2.trans ?_)
    congr 1
    exact idx_prev _ r k hr0 hrn hk

theorem getD_iterate (f : Nat → Nat) (a n k : Nat) (hk : k < n) :
    (List.iterate f a n).getD k 0 = f^[k] a := by
  rw [List.getD_eq_getElem _ 0 (by simpa using hk), List.getElem_iterate]

theorem Cyc.posOrder_eq {m : moveToFrontDecoder} {l : List Nat} (h : Cyc m l) :
    posOrder m = l := by
  apply List.ext_getElem
  · simp [posOrder, h.len_l]
  · intro k h1 h2
    have hk : k < m.symbols.length := h.len_l ▸ h2
    rw [← List.getD_eq_getElem _ 0 h1, ← List.getD_eq_getElem _ 0 h2]
    unfold posOrder
    rw [getD_iterate _ _ _ _ hk, ← h.head_eq, h.iterate_next k 0 h.pos]
    congr 1
    rw [Nat.zero_add, Nat.mod_eq_of_lt hk]

theorem Cyc.order_eq {m : moveToFrontDecoder} {l : List Nat} (h : Cyc m l) :
    order m = l.map (fun i => m.symbols.getD i 0) := by
  unfold order; rw [h.posOrder_eq]

/-- In-range links whose orbit from `head` has `n` distinct positions, with
`prev` undoing `next`, satisfy the cycle invariant for that orbit. -/
theorem cyc_of_links {m : moveToFrontDecoder} (hpos : 1 ≤ m.symbols.length)
    (hln : m.next.length = m.symbols.length) (hlp : m.prev.length = m.symbols.length)
    (hh : m.head < m.symbols.length)
    (hnx : ∀ i, i < m.symbols.length → m.next.getD i 0 < m.symbols.length)
    (hnd : (posOrder m).Nodup)
    (hpv : ∀ i, i < m.symbols.length → m.prev.getD (m.next.getD i 0) 0 = i) :
    Cyc m (posOrder m) := by
  have hlen : (posOrder m).length = m.symbols.length := by simp [posOrder]
  have hget : ∀ k, k < m.symbols.length →
      (posOrder m).getD k 0 = (fun i => m.next.getD i 0)^[k] m.head :=
    fun k hk => getD_iterate _ _ _ _ hk
  have hit : ∀ k, (fun i => m.next.getD i 0)^[k] m.head < m.symbols.length := by
    intro k
    induction k with
    | zero => exact hh
    | succ k ih => rw [Function.iterate_succ_apply']; exact hnx _ ih
  have hlt : ∀ k, k < m.symbols.length → (posOrder m).getD k 0 < m.symbols.length :=
    fun k hk => by rw [hget k hk]; exact hit k
  have hwrap : (fun i => m.next.getD i 0)^[m.symbols.length] m.head = m.head := by
    obtain ⟨j, hj, hje⟩ := exists_getD_of_full hnd hlen hlt _ (hit m.symbols.length)
    rw [hget j hj] at hje
    cases j with
    | zero => exact hje.symm
    | succ j =>
      exfalso
      obtain ⟨n1, hn1⟩ : ∃ n1, m.symbols.length = n1 + 1 := ⟨m.symbols.length - 1, by omega⟩
      rw [hn1, Function.iterate_succ_apply', Function.iterate_succ_apply'] at hje
      have h3 := congrArg (fun x => m.prev.getD x 0) hje
      simp only [] at h3
      rw [hpv _ (hit j), hpv _ (hit n1), ← hget j (by omega), ← hget n1 (by omega),
        getD_inj_iff hnd (by omega) (by omega)] at h3
      omega
  refine ⟨hpos, hln, hlp, hlen, hnd, hlt, hget 0 hpos, ?_, ?_⟩
  · intro k hk
    rw [hget k hk]
    have e : m.next.getD ((fun i => m.next.getD i 0)^[k] m.head) 0 =
        (fun i => m.next.getD i 0)^[k + 1] m.head :=
      (Function.iterate_succ_apply' (fun i => m.next.getD i 0) k m.head).symm
    rw [e]
    by_cases hc : k + 1 = m.symbols.length
    · rw [if_pos hc, hc, hwrap, hget 0 hpos]; rfl
    · rw [if_neg hc, hget (k + 1) (by omega)]
  · intro k hk
    cases k with
    | zero =>
      rw [if_pos rfl, hget 0 hpos, hget _ (by omega)]
      show m.prev.getD m.head 0 = _
      conv_lhs => rw [← hwrap]
      obtain ⟨n1, hn1⟩ : ∃ n1, m.symbols.length = n1 + 1 := ⟨m.symbols.length - 1, by omega⟩
      rw [hn1, Function.iterate_succ_apply', hpv _ (hit n1)]
      rfl
    | succ k =>
      rw [if_neg (by omega), hget _ hk, hget _ (by omega), Function.iterate_succ_apply',
        hpv _ (hit k)]
      rfl

/-- A well-formed decoder satisfies the cycle invariant for its own position order. -/
theorem WellFormed.cyc {m : moveToFrontDecoder} (h : WellFormed m) : Cyc m (posOrder m) := by
  obtain ⟨hpos, -, hln, hlp, hh, hnx, hnd, hpv⟩ := h
  exact cyc_of_links hpos hln hlp hh hnx hnd hpv

/-- The cycle invariant gives back well-formedness. -/
theorem Cyc.wellFormed {m : moveToFrontDecoder} {l : List Nat} (h : Cyc m l)
    (h256 : m.symbols.length ≤ 256) : WellFormed m := by
  refine ⟨h.pos, h256, h.len_next, h.len_prev, h.head_lt, h.bounded_next.2, ?_, ?_⟩
  · rw [h.posOrder_eq]; exact h.nodup
  · intro i hi
    obtain ⟨k, hk, rfl⟩ := exists_getD_of_full h.nodup h.len_l h.lt i hi
    rw [h.nx k hk]
    have hk2 : (if k + 1 = m.symbols.length then 0 else k + 1) < m.symbols.length := by
      split <;> omega
    rw [h.pv _ hk2]
    congr 1
    by_cases hc : k + 1 = m.symbols.length
    · rw [if_pos hc, if_pos rfl]; omega
    · rw [if_neg hc, if_neg (by omega)]; omega

/-! ## The constructors -/

theorem ext_getD {l1 l2 : List Nat} (hl : l1.length = l2.length)
    (h : ∀ j, j < l1.length → l1.getD j 0 = l2.getD j 0) : l1 = l2 := by
  apply List.ext_getElem hl
  intro j h1 h2
  rw [← List.getD_eq_getElem _ 0 h1, ← List.getD_eq_getElem _ 0 h2]
  exact h j h1

theorem getD_initNext (n j : Nat) (hj : j < n) :
    (initNext n).getD j 0 = if j + 1 = n then 0 else j + 1 := by
  unfold initNext
  rw [List.getD_eq_getElem _ 0 (by simpa using hj)]
  simp

theorem getD_initPrev (n j : Nat) (hj : j < n) :
    (initPrev n).getD j 0 = if j = 0 then n - 1 else j - 1 := by
  unfold initPrev
  rw [List.getD_eq_getElem _ 0 (by simpa using hj)]
  simp

/-- The threading loop never indexes out of range and writes `j + 1` into
`next[j]` and `j` into `prev[j + 1]` for each `j` it visits, untruncated. -/
theorem threadLoop_ok : ∀ (k i : Nat) (nx pv : List Nat),
    i + k < nx.length → i + k < pv.length → i + k ≤ 255 →
    ∃ nx1 pv1, threadLoop k i nx pv = .ok (nx1, pv1) ∧
      nx1.length = nx.length ∧ pv1.length = pv.length ∧
      (∀ j, nx1.getD j 0 = if i ≤ j ∧ j < i + k then j + 1 else nx.getD j 0) ∧
      (∀ j, pv1.getD j 0 = if i < j ∧ j ≤ i + k then j - 1 else pv.getD j 0) := by
  intro k
  induction k with
  | zero =>
    intro i nx pv _ _ _
    refine ⟨nx, pv, rfl, rfl, rfl, fun j => ?_, fun j => ?_⟩
    · rw [if_neg (by omega)]
    · rw [if_neg (by omega)]
  | succ k ih =>
    intro i nx pv h1 h2 h3
    have w1 : writeAt nx i ((i + 1) % 256) = .ok (nx.set i (i + 1)) := by
      rw [Nat.mod_eq_of_lt (by omega)]; exact writeAt_ok _ (by omega)
    have w2 : writeAt pv (i + 1) (i % 256) = .ok (pv.set (i + 1) i) := by
      rw [Nat.mod_eq_of_lt (by omega)]; exact writeAt_ok _ (by omega)
    obtain ⟨nx1, pv1, e, l1, l2, g1, g2⟩ := ih (i + 1) (nx.set i (i + 1)) (pv.set (i + 1) i)
      (by rw [List.length_set]; omega) (by rw [List.length_set]; omega) (by omega)
    refine ⟨nx1, pv1, ?_, ?_, ?_, fun j => ?_, fun j => ?_⟩
    · simp only [threadLoop, w1, w2, bind, Except.bind]
      exact e
    · rw [l1, List.length_set]
    · rw [l2, List.length_set]
    · rw [g1 j, getD_set_eq_update _ _ (by omega), Function.update_apply]
      split_ifs <;> omega
    · rw [g2 j, getD_set_eq_update _ _ (by omega), Function.update_apply]
      split_ifs <;> omega

/-- On slices of the right length, `threadLinkedList` succeeds and overwrites
every link: `next[i] = i + 1` and `prev[i] = i - 1`, wrapping at the ends. -/
theorem threadLinkedList_ok (m : moveToFrontDecoder) (h256 : m.symbols.length ≤ 256)
    (hln : m.next.length = m.symbols.length) (hlp : m.prev.length = m.symbols.length) :
    threadLinkedList m =
      .ok { m with next := initNext m.symbols.length, prev := initPrev m.symbols.length } := by
  by_cases h0 : m.symbols.length = 0
  · have e1 : m.next = [] := List.length_eq_zero.mp (hln.trans h0)
    have e2 : m.prev = [] := List.length_eq_zero.mp (hlp.trans h0)
    have e3 : initNext m.symbols.length = m.next := by rw [h0, e1]; rfl
    have e4 : initPrev m.symbols.length = m.prev := by rw [h0, e2]; rfl
    rw [e3, e4]
    simp only [threadLinkedList, if_pos h0]
  · have w0 : writeAt m.prev 0 ((m.symbols.length - 1) % 256) =
        .ok (m.prev.set 0 (m.symbols.length - 1)) := by
      rw [Nat.mod_eq_of_lt (by omega)]; exact writeAt_ok _ (by omega)
    obtain ⟨nx1, pv1, e, l1, l2, g1, g2⟩ := threadLoop_ok (m.symbols.length - 1) 0 m.next
      (m.prev.set 0 (m.symbols.length - 1)) (by omega) (by rw [List.length_set]; omega)
      (by omega)
    have w3 : writeAt nx1 (m.symbols.length - 1) 0 = .ok (nx1.set (m.symbols.length - 1) 0) :=
      writeAt_ok _ (by omega)
    simp only [threadLinkedList, if_neg h0, w0, e, w3, bind, Except.bind, pure, Except.pure]
    have en : nx1.set (m.symbols.length - 1) 0 = initNext m.symbols.length := by
      apply ext_getD
      · simp [initNext, l1, hln]
      · intro j hj
        rw [List.length_set, l1, hln] at hj
        rw [getD_initNext _ _ hj, getD_set_eq_update _ _ (by omega), Function.update_apply,
          g1 j]
        split_ifs <;> omega
    have ep : pv1 = initPrev m.symbols.length := by
      apply ext_getD
      · simp [initPrev, l2, hlp]
      · intro j hj
        rw [l2, List.length_set, hlp] at hj
        rw [getD_initPrev _ _ hj, g2 j, getD_set_eq_update _ _ (by omega),
          Function.update_apply]
        split_ifs <;> omega
    rw [en, ep]

theorem newMTFDecoder_ok (s : List Nat) (h : s.length ≤ 256) :
    newMTFDecoder s =
      .ok { symbols := s, next := initNext s.length, prev := initPrev s.length, head := 0 } := by
  unfold newMTFDecoder
  rw [if_neg (by omega)]
  exact threadLinkedList_ok _ h (by simp) (by simp)

/-- A freshly threaded decoder lists its positions in the order `0, 1, …, n-1`. -/
theorem Cyc.init (s : List Nat) (hpos : 0 < s.length) :
    Cyc { symbols := s, next := initNext s.length, prev := initPrev s.length, head := 0 }
      (List.range s.length) := by
  have hg : ∀ k, k < s.length → (List.range s.length).getD k 0 = k := by
    intro k hk
    rw [List.getD_eq_getElem _ 0 (by simpa using hk)]
    simp
  refine ⟨hpos, by simp [initNext], by simp [initPrev], by simp, List.nodup_range _, ?_,
    hg 0 hpos, ?_, ?_⟩
  · intro k hk
    show (List.range s.length).getD k 0 < s.length
    rw [hg k hk]; exact hk
  · intro k hk
    replace hk : k < s.length := hk
    show (initNext s.length).getD ((List.range s.length).getD k 0) 0 =
      (List.range s.length).getD (if k + 1 = s.length then 0 else k + 1) 0
    rw [hg k hk, getD_initNext _ _ hk, hg _ (by split <;> omega)]
  · intro k hk
    replace hk : k < s.length := hk
    show (initPrev s.length).getD ((List.range s.length).getD k 0) 0 =
      (List.range s.length).getD (if k = 0 then s.length - 1 else k - 1) 0
    rw [hg k hk, getD_initPrev _ _ hk, hg _ (by split <;> omega)]

/-- The fill loop never indexes out of range and writes `j` into `symbols[j]`
for each `j` it visits, untruncated. -/
theorem fillLoop_ok : ∀ (k i : Nat) (sy : List Nat),
    i + k ≤ sy.length → i + k ≤ 256 →
    ∃ sy1, fillLoop k i sy = .ok sy1 ∧ sy1.length = sy.length ∧
      (∀ j, sy1.getD j 0 = if i ≤ j ∧ j < i + k then j else sy.getD j 0) := by
  intro k
  induction k with
  | zero =>
    intro i sy _ _
    refine ⟨sy, rfl, rfl, fun j => ?_⟩
    rw [if_neg (by omega)]
  | succ k ih =>
    intro i sy h1 h2
    have w1 : writeAt sy i (i % 256) = .ok (sy.set i i) := by
      rw [Nat.mod_eq_of_lt (by omega)]; exact writeAt_ok _ (by omega)
    obtain ⟨sy1, e, l1, g1⟩ := ih (i + 1) (sy.set i i) (by rw [List.length_set]; omega)
      (by omega)
    refine ⟨sy1, ?_, ?_, fun j => ?_⟩
    · simp only [fillLoop, w1, bind, Except.bind]
      exact e
    · rw [l1, List.length_set]
    · rw [g1 j, getD_set_eq_update _ _ (by omega), Function.update_apply]
      split_ifs <;> omega

theorem fillLoop_range (n : Nat) (h : n ≤ 256) :
    fillLoop n 0 (List.replicate n 0) = .ok (List.range n) := by
  obtain ⟨sy1, e, l1, g1⟩ := fillLoop_ok n 0 (List.replicate n 0) (by simp) (by omega)
  rw [e]
  congr 1
  apply ext_getD
  · simp [l1]
  · intro j hj
    rw [l1, List.length_replicate] at hj
    rw [g1 j, if_pos (by omega), List.getD_eq_getElem _ 0 (by simpa using hj)]
    simp

theorem newMTFDecoderWithRange_ok (n : Int) (h0 : 0 ≤ n) (h : n ≤ 256) :
    newMTFDecoderWithRange n =
      .ok { symbols := List.range n.toNat, next := initNext n.toNat,
            prev := initPrev n.toNat, head := 0 } := by
  have hn : n.toNat ≤ 256 := by omega
  unfold newMTFDecoderWithRange
  rw [if_neg (by omega), if_neg (by omega), fillLoop_range _ hn]
  simp only [bind, Except.bind]
  have := threadLinkedList_ok
    { symbols := List.range n.toNat, next := List.replicate n.toNat 0,
      prev := List.replicate n.toNat 0, head := 0 } (by simpa using hn) (by simp) (by simp)
  simpa using this

/-! ## One `Decode` step on the cycle invariant -/

theorem Decode_zero (m : moveToFrontDecoder) (h : m.head < m.symbols.length) :
    Decode m 0 = .ok (m.symbols.getD m.head 0, m) := by
  simp only [Decode, if_true, readAt_ok h, bind, Except.bind, pure, Except.pure]

theorem First_ok (m : moveToFrontDecoder) (h : m.head < m.symbols.length) :
    First m = .ok (m.symbols.getD m.head 0, m) := by
  simp only [First, readAt_ok h, bind, Except.bind, pure, Except.pure]

theorem cons_eraseIdx_zero (l : List Nat) (h : 0 < l.length) :
    l.getD 0 0 :: l.eraseIdx 0 = l := by
  cases l with
  | nil => simp at h
  | cons a t => simp

/-- A rank `r ≥ 1`, however large, makes `Decode` walk to the position at rank
`r mod n`, return its symbol and relink it. -/
theorem Cyc.decode_walk {m : moveToFrontDecoder} {l : List Nat} (h : Cyc m l) (r : Int)
    (hr : 0 < r) :
    Decode m r =
      .ok (m.symbols.getD (l.getD (r.toNat % m.symbols.length) 0) 0,
           MTF.relink m (l.getD (r.toNat % m.symbols.length) 0)) := by
  rw [Decode_eq_relink m r (by omega) h.bounded_next h.bounded_prev h.head_lt, ← h.head_eq,
    h.iterate_next r.toNat 0 h.pos, Nat.zero_add]

/-- The move-to-front step on the cycle invariant: `Decode` at a rank below `n`
returns the symbol of the position at that rank and moves that position to the
front of the position list. -/
theorem Cyc.decode {m : moveToFrontDecoder} {l : List Nat} (h : Cyc m l) (r : Nat)
    (hrn : r < m.symbols.length) :
    ∃ m1, Decode m (r : Int) = .ok (m.symbols.getD (l.getD r 0) 0, m1) ∧
      m1.symbols = m.symbols ∧ Cyc m1 (l.getD r 0 :: l.eraseIdx r) := by
  cases r with
  | zero =>
    refine ⟨m, ?_, rfl, ?_⟩
    · rw [h.head_eq]; exact Decode_zero m h.head_lt
    · rw [cons_eraseIdx_zero l (by rw [h.len_l]; exact h.pos)]; exact h
  | succ r =>
    refine ⟨MTF.relink m (l.getD (r + 1) 0), ?_, rfl, h.relink (r + 1) (by omega) hrn⟩
    have := h.decode_walk ((r + 1 : Nat) : Int) (by omega)
    rw [Int.toNat_ofNat, Nat.mod_eq_of_lt hrn] at this
    exact this

theorem map_eraseIdx (g : Nat → Nat) (l : List Nat) (r : Nat) :
    (l.eraseIdx r).map g = (l.map g).eraseIdx r := by
  rw [List.eraseIdx_eq_take_drop_succ, List.eraseIdx_eq_take_drop_succ, List.map_append,
    List.map_take, List.map_drop]

theorem getD_map_lt (g : Nat → Nat) (l : List Nat) (r : Nat) (hr : r < l.length) :
    (l.map g).getD r 0 = g (l.getD r 0) := by
  rw [List.getD_eq_getElem _ 0 (by simpa using hr), List.getD_eq_getElem _ 0 hr]
  simp

/-- The move-to-front step on the recency order of a well-formed decoder; the
resulting decoder is well-formed again. -/
theorem WellFormed.decode_order {m : moveToFrontDecoder} (h : WellFormed m) (r : Nat)
    (hrn : r < m.symbols.length) :
    ∃ m1, Decode m (r : Int) = .ok ((order m).getD r 0, m1) ∧
      m1.symbols = m.symbols ∧ WellFormed m1 ∧
      order m1 = (order m).getD r 0 :: (order m).eraseIdx r := by
  have hc := h.cyc
  obtain ⟨m1, e, hs, hc1⟩ := hc.decode r hrn
  have hrl : r < (posOrder m).length := by rw [hc.len_l]; exact hrn
  have hb : (order m).getD r 0 = m.symbols.getD ((posOrder m).getD r 0) 0 :=
    getD_map_lt _ _ _ hrl
  refine ⟨m1, by rw [hb]; exact e, hs, hc1.wellFormed (by rw [hs]; exact h.2.1), ?_⟩
  rw [hc1.order_eq, hs, hb, List.map_cons, map_eraseIdx]
  rfl

/-! ## Sequences of `Decode` calls -/

/-- Any sequence of in-range ranks decodes without panic and keeps the cycle
invariant, for a permutation of the position list. -/
theorem Cyc.decodeAll : ∀ (rs : List Int) (m : moveToFrontDecoder) (l : List Nat),
    Cyc m l → (∀ r ∈ rs, 0 ≤ r ∧ r < m.symbols.length) →
    ∃ bs m1 l1, MTF.decodeAll m rs = .ok (bs, m1) ∧ m1.symbols = m.symbols ∧
      Cyc m1 l1 ∧ l1.Perm l := by
  intro rs
  induction rs with
  | nil => intro m l h _; exact ⟨[], m, l, rfl, rfl, h, List.Perm.refl _⟩
  | cons r rs ih =>
    intro m l h hrs
    obtain ⟨h0, hr⟩ := hrs r (List.mem_cons_self _ _)
    have hrn : r.toNat < m.symbols.length := by omega
    obtain ⟨m1, e1, hs1, hc1⟩ := h.decode r.toNat hrn
    rw [Int.toNat_of_nonneg h0] at e1
    obtain ⟨bs, m2, l2, e2, hs2, hc2, hp2⟩ := ih m1 _ hc1 (by
      intro r1 hr1
      rw [hs1]
      exact hrs r1 (List.mem_cons_of_mem _ hr1))
    refine ⟨m.symbols.getD (l.getD r.toNat 0) 0 :: bs, m2, l2, ?_, hs2.trans hs1, hc2,
      hp2.trans ?_⟩
    · simp only [MTF.decodeAll, e1, e2, bind, Except.bind, pure, Except.pure]
    · exact cons_eraseIdx_perm l r.toNat (by rw [h.len_l]; exact hrn) h.nodup

/-- Decoding the ranks of the reference encoder gives back the bytes, from any
decoder whose recency order is the encoder's list. -/
theorem Cyc.roundtrip : ∀ (bs : List Nat) (m : moveToFrontDecoder) (l : List Nat),
    Cyc m l → (l.map (fun i => m.symbols.getD i 0)).Nodup →
    (∀ b ∈ bs, b ∈ l.map (fun i => m.symbols.getD i 0)) →
    ∃ m1, MTF.decodeAll m
      ((mtfEncode (l.map (fun i => m.symbols.getD i 0)) bs).map Int.ofNat) = .ok (bs, m1) := by
  intro bs
  induction bs with
  | nil => intro m l _ _ _; exact ⟨m, rfl⟩
  | cons b bs ih =>
    intro m l h hnd hbs
    have hb : b ∈ l.map (fun i => m.symbols.getD i 0) := hbs b (List.mem_cons_self _ _)
    have hidx := List.indexOf_lt_length.mpr hb
    have hrl : (l.map (fun i => m.symbols.getD i 0)).indexOf b < l.length := by
      simpa using hidx
    have hrn : (l.map (fun i => m.symbols.getD i 0)).indexOf b < m.symbols.length := by
      rw [← h.len_l]; exact hrl
    obtain ⟨m1, e1, hs1, hc1⟩ := h.decode _ hrn
    have hval : m.symbols.getD (l.getD ((l.map (fun i => m.symbols.getD i 0)).indexOf b) 0) 0
        = b := by
      rw [← getD_map_lt (fun i => m.symbols.getD i 0) l _ hrl, List.getD_eq_getElem _ 0 hidx]
      exact List.getElem_indexOf hidx
    rw [hval] at e1
    have hmap : (l.getD ((l.map (fun i => m.symbols.getD i 0)).indexOf b) 0 ::
        l.eraseIdx ((l.map (fun i => m.symbols.getD i 0)).indexOf b)).map
        (fun i => m1.symbols.getD i 0) = b :: (l.map (fun i => m.symbols.getD i 0)).erase b := by
      rw [hs1, List.map_cons, hval, map_eraseIdx, List.eraseIdx_indexOf_eq_erase]
    obtain ⟨m2, e2⟩ := ih m1 _ hc1
      (by rw [hmap]; exact List.nodup_cons.mpr ⟨hnd.not_mem_erase, hnd.erase b⟩)
      (by
        intro b1 hb1
        rw [hmap]
        exact (List.perm_cons_erase hb).mem_iff.mp (hbs b1 (List.mem_cons_of_mem _ hb1)))
    rw [hmap] at e2
    refine ⟨m2, ?_⟩
    simp only [mtfEncode, List.map_cons, MTF.decodeAll, bind, Except.bind, pure, Except.pure]
    have e1b : Decode m (Int.ofNat ((l.map (fun i => m.symbols.getD i 0)).indexOf b)) =
        .ok (b, m1) := e1
    rw [e1b]
    simp only []
    rw [e2]

theorem map_range_getD (s : List Nat) :
    (List.range s.length).map (fun i => s.getD i 0) = s := by
  apply ext_getD
  · simp
  · intro j hj
    have hj2 : j < s.length := by simpa using hj
    rw [getD_map_lt _ _ _ (by simpa using hj2), List.getD_eq_getElem (List.range _) 0
      (by simpa using hj2)]
    simp

/-! ## Frame facts and self-loops -/

theorem bind_eq_ok {α β : Type} {x : Except Panic α} {f : α → Except Panic β} {b : β}
    (h : (x >>= f) = .ok b) : ∃ a, x = .ok a ∧ f a = .ok b := by
  cases x with
  | error e => cases h
  | ok a => exact ⟨a, rfl, h⟩

theorem writeAt_length {xs ys : List Nat} {i v : Nat} (h : writeAt xs i v = .ok ys) :
    ys.length = xs.length := by
  unfold writeAt at h
  split at h
  · cases h; simp
  · cases h

/-- Whatever the decoder, a `Decode` call that returns has written only to
`next`, `prev` and `head`, and has kept the slice lengths. -/
theorem Decode_frame {m m1 : moveToFrontDecoder} {r : Int} {b : Nat}
    (h : Decode m r = .ok (b, m1)) :
    m1.symbols = m.symbols ∧ m1.next.length = m.next.length ∧
      m1.prev.length = m.prev.length := by
  unfold Decode at h
  split at h
  · obtain ⟨b0, -, h1⟩ := bind_eq_ok h
    cases h1
    exact ⟨rfl, rfl, rfl⟩
  · obtain ⟨i, -, h⟩ := bind_eq_ok h
    obtain ⟨b0, -, h⟩ := bind_eq_ok h
    obtain ⟨pi, -, h⟩ := bind_eq_ok h
    obtain ⟨ni, -, h⟩ := bind_eq_ok h
    obtain ⟨next1, w1, h⟩ := bind_eq_ok h
    obtain ⟨ni1, -, h⟩ := bind_eq_ok h
    obtain ⟨pi1, -, h⟩ := bind_eq_ok h
    obtain ⟨prev1, w2, h⟩ := bind_eq_ok h
    obtain ⟨next2, w3, h⟩ := bind_eq_ok h
    obtain ⟨ph, -, h⟩ := bind_eq_ok h
    obtain ⟨prev2, w4, h⟩ := bind_eq_ok h
    obtain ⟨ph2, -, h⟩ := bind_eq_ok h
    obtain ⟨next3, w5, h⟩ := bind_eq_ok h
    obtain ⟨prev3, w6, h⟩ := bind_eq_ok h
    cases h
    refine ⟨rfl, ?_, ?_⟩
    · show next3.length = m.next.length
      rw [writeAt_length w5, writeAt_length w3, writeAt_length w1]
    · show prev3.length = m.prev.length
      rw [writeAt_length w6, writeAt_length w4, writeAt_length w2]

theorem set_getD_self {xs : List Nat} {i v : Nat} (hi : i < xs.length)
    (hv : xs.getD i 0 = v) : xs.set i v = xs := by
  apply ext_getD (by simp)
  intro j _
  rw [getD_set_eq_update _ _ hi, Function.update_apply]
  split
  · next e => rw [e, hv]
  · rfl

/-- When `head` is a self-loop of both `next` and `prev`, relinking `head`
changes nothing. -/
theorem relink_self_loop (m : moveToFrontDecoder) (hn : m.head < m.next.length)
    (hp : m.head < m.prev.length) (en : m.next.getD m.head 0 = m.head)
    (ep : m.prev.getD m.head 0 = m.head) : relink m m.head = m := by
  have s1 : m.next.set m.head m.head = m.next := set_getD_self hn en
  have s2 : m.prev.set m.head m.head = m.prev := set_getD_self hp ep
  unfold relink
  simp only [en, ep, s1, s2]

/-- When `head` is a self-loop of both `next` and `prev`, every `Decode`,
whatever the rank, returns `symbols[head]` and leaves the decoder as it was. -/
theorem Decode_self_loop (m : moveToFrontDecoder)
    (hnx : Bounded m.next m.symbols.length) (hpv : Bounded m.prev m.symbols.length)
    (hh : m.head < m.symbols.length) (en : m.next.getD m.head 0 = m.head)
    (ep : m.prev.getD m.head 0 = m.head) (k : Int) :
    Decode m k = .ok (m.symbols.getD m.head 0, m) := by
  by_cases hk : k = 0
  · rw [hk]; exact Decode_zero m hh
  · have en1 : (fun j => m.next.getD j 0) m.head = m.head := en
    have hfix : (fun j => m.next.getD j 0)^[k.toNat] m.head = m.head :=
      @Function.iterate_fixed Nat (fun j => m.next.getD j 0) m.head en1 k.toNat
    rw [Decode_eq_relink m k hk hnx hpv hh, hfix,
      relink_self_loop m (by rw [hnx.1]; exact hh) (by rw [hpv.1]; exact hh) en ep]

/-! ## The list invariant -/

theorem add_mod_ne (n k i j : Nat) (hij : i < j) (hj : j < n) :
    (k + i) % n ≠ (k + j) % n := by
  intro e
  have h1 : i % n = j % n := Nat.ModEq.add_left_cancel' k e
  rw [Nat.mod_eq_of_lt (by omega), Nat.mod_eq_of_lt hj] at h1
  omega

/-- The cycle invariant implies the list invariant (i)-(iii). -/
theorem Cyc.listInv {m : moveToFrontDecoder} {l : List Nat} (h : Cyc m l) : ListInv m := by
  have hσ : ∀ k, k < m.symbols.length →
      (if k + 1 = m.symbols.length then 0 else k + 1) < m.symbols.length := by
    intro k hk; split <;> omega
  have hπ : ∀ k, k < m.symbols.length →
      (if k = 0 then m.symbols.length - 1 else k - 1) < m.symbols.length := by
    intro k hk; split <;> omega
  refine ⟨h.len_next, h.len_prev, ⟨h.head_lt, fun i hi => ⟨h.bounded_next.2 i hi,
    h.bounded_prev.2 i hi⟩⟩, ?_, ?_⟩
  · intro i hi
    obtain ⟨k, hk, rfl⟩ := exists_getD_of_full h.nodup h.len_l h.lt i hi
    refine ⟨?_, ?_⟩
    · rw [h.pv k hk, h.nx _ (hπ k hk)]
      congr 1
      by_cases hc : k = 0
      · rw [if_pos hc, if_pos (by omega)]; omega
      · rw [if_neg hc, if_neg (by omega)]; omega
    · rw [h.nx k hk, h.pv _ (hσ k hk)]
      congr 1
      by_cases hc : k + 1 = m.symbols.length
      · rw [if_pos hc, if_pos rfl]; omega
      · rw [if_neg hc, if_neg (by omega)]; omega
  · intro i hi
    obtain ⟨k, hk, rfl⟩ := exists_getD_of_full h.nodup h.len_l h.lt i hi
    refine ⟨?_, ?_⟩
    · rw [List.nodup_iff_getElem?_ne_getElem?]
      intro a b hab hb
      rw [List.length_iterate] at hb
      rw [List.getElem?_iterate _ _ _ _ (by omega), List.getElem?_iterate _ _ _ _ hb,
        h.iterate_next a k hk, h.iterate_next b k hk]
      intro e
      have e2 := (h.inj _ _ (Nat.mod_lt _ h.pos) (Nat.mod_lt _ h.pos)).mp (Option.some.inj e)
      exact add_mod_ne _ k a b hab hb e2
    · rw [h.iterate_next _ k hk, Nat.add_mod_right, Nat.mod_eq_of_lt hk]

/-- The list invariant (i)-(iii) implies the cycle invariant for the orbit of `head`. -/
theorem ListInv.to_cyc {m : moveToFrontDecoder} (h : ListInv m) : Cyc m (posOrder m) := by
  obtain ⟨hln, hlp, ⟨hh, hr⟩, hinv, hcyc⟩ := h
  exact cyc_of_links (by omega) hln hlp hh (fun i hi => (hr i hi).1) (hcyc _ hh).1
    (fun i hi => (hinv i hi).2)

/-! ## Relinking the head itself -/

/-- The six writes applied to the head position `h` itself, when `h` is not its
own neighbour: `h` becomes a self-loop and its old predecessor still points to it. -/
theorem relink_head_fun (nx pv : Nat → Nat) (h : Nat) (hp : pv h ≠ h) (hn : nx h ≠ h) :
    let next1 := Function.update nx (pv h) (nx h)
    let prev1 := Function.update pv (next1 h) (pv h)
    let next2 := Function.update next1 h h
    let prev2 := Function.update prev1 h (prev1 h)
    let next3 := Function.update next2 (prev2 h) h
    let prev3 := Function.update prev2 h h
    next3 h = h ∧ prev3 h = h ∧ next3 (pv h) = h := by
  intro next1 prev1 next2 prev2 next3 prev3
  have a1 : next1 h = nx h := Function.update_noteq (Ne.symm hp) _ _
  have a2 : prev1 h = pv h := by
    show Function.update pv (next1 h) (pv h) h = pv h
    rw [a1]; exact Function.update_noteq (Ne.symm hn) _ _
  have a3 : prev2 h = pv h := by
    show Function.update prev1 h (prev1 h) h = pv h
    rw [Function.update_same, a2]
  refine ⟨?_, Function.update_same _ _ _, ?_⟩
  · show Function.update next2 (prev2 h) h h = h
    rw [a3, Function.update_noteq (Ne.symm hp)]
    exact Function.update_same _ _ _
  · show Function.update next2 (prev2 h) h (pv h) = h
    rw [a3]; exact Function.update_same _ _ _

/-- On a cycle of at least two positions, relinking the head leaves the links in
range, turns the head into a self-loop of `next` and `prev`, and leaves the
`next` of another position pointing to the head. -/
theorem Cyc.relink_head {m : moveToFrontDecoder} {l : List Nat} (h : Cyc m l)
    (h2 : 2 ≤ m.symbols.length) :
    Bounded (MTF.relink m m.head).next m.symbols.length ∧
    Bounded (MTF.relink m m.head).prev m.symbols.length ∧
    (MTF.relink m m.head).next.getD m.head 0 = m.head ∧
    (MTF.relink m m.head).prev.getD m.head 0 = m.head ∧
    m.prev.getD m.head 0 < m.symbols.length ∧ m.prev.getD m.head 0 ≠ m.head ∧
    (MTF.relink m m.head).next.getD (m.prev.getD m.head 0) 0 = m.head := by
  have hp : m.prev.getD m.head 0 ≠ m.head := by
    have := h.pv 0 h.pos
    rw [h.head_eq, if_pos rfl] at this
    rw [this, ← h.head_eq]
    intro e
    have := (h.inj _ _ (by omega) h.pos).mp e
    omega
  have hn : m.next.getD m.head 0 ≠ m.head := by
    have := h.nx 0 h.pos
    rw [h.head_eq, if_neg (by omega)] at this
    rw [this, ← h.head_eq]
    intro e
    have := (h.inj _ _ (by omega) h.pos).mp e
    omega
  obtain ⟨e1, e2, b1, b2⟩ := relink_getD m m.head h.bounded_next h.bounded_prev h.head_lt
    h.head_lt m.head rfl
  obtain ⟨f1, f2, f3⟩ := relink_head_fun (fun k => m.next.getD k 0) (fun k => m.prev.getD k 0)
    m.head hp hn
  exact ⟨b1, b2, (e1 _).trans f1, (e2 _).trans f2, h.bounded_prev.2 _ h.head_lt, hp,
    (e1 _).trans f3⟩

/-- On a cycle of at least two positions, relinking the last position (the
predecessor of the head) writes back the links that were there. -/
theorem Cyc.relink_last {m : moveToFrontDecoder} {l : List Nat} (h : Cyc m l)
    (h2 : 2 ≤ m.symbols.length) :
    l.getD (m.symbols.length - 1) 0 = m.prev.getD m.head 0 ∧
    (MTF.relink m (l.getD (m.symbols.length - 1) 0)).next = m.next ∧
    (MTF.relink m (l.getD (m.symbols.length - 1) 0)).prev = m.prev := by
  have hrn : m.symbols.length - 1 < m.symbols.length := by omega
  have hc : m.symbols.length - 1 + 1 = m.symbols.length := by omega
  obtain ⟨e1, e2, b1, b2⟩ := relink_getD m (l.getD (m.symbols.length - 1) 0) h.bounded_next
    h.bounded_prev h.head_lt (h.lt _ hrn) (l.getD 0 0) h.head_eq
  have key := relink_fun m.symbols.length (m.symbols.length - 1) (fun k => l.getD k 0)
    (fun k => m.next.getD k 0) (fun k => m.prev.getD k 0) (by omega) hrn h.inj h.nx h.pv
  refine ⟨?_, ?_, ?_⟩
  · have := h.pv 0 h.pos
    rw [h.head_eq, if_pos rfl] at this
    exact this.symm
  · apply ext_getD (b1.1.trans h.len_next.symm)
    intro j hj
    rw [b1.1] at hj
    obtain ⟨k, hk, rfl⟩ := exists_getD_of_full h.nodup h.len_l h.lt j hj
    refine (e1 _).trans ((key k hk).1.trans ?_)
    rw [h.nx k hk]
    congr 1
    simp only [hc, if_true]
    split_ifs <;> omega
  · apply ext_getD (b2.1.trans h.len_prev.symm)
    intro j hj
    rw [b2.1] at hj
    obtain ⟨k, hk, rfl⟩ := exists_getD_of_full h.nodup h.len_l h.lt j hj
    refine (e2 _).trans ((key k hk).2.trans ?_)
    rw [h.pv k hk]
    congr 1
    simp only [hc, if_true]
    split_ifs <;> omega

theorem toNat_mod_eq_zero (r : Int) (n : Nat) (hr : 0 ≤ r) :
    r.toNat % n = 0 ↔ r % (n : Int) = 0 := by
  have e : ((r.toNat % n : Nat) : Int) = r % (n : Int) := by
    rw [Int.natCast_mod, Int.toNat_of_nonneg hr]
  rw [← e]
  exact Int.natCast_eq_zero.symm

/-! ## The properties of the decoder -/

/-- C1: on a well-formed decoder with `n` symbols, `Decode r` for `0 ≤ r < n`
returns the symbol at rank `r` of the recency order, and the recency order of
the resulting decoder is that symbol followed by the old order with the entry
at index `r` removed. -/
theorem Decode_move_to_front (m : moveToFrontDecoder) (r : Int) (hwf : WellFormed m)
    (h0 : 0 ≤ r) (hr : r < m.symbols.length) :
    (order m).length = m.symbols.length ∧
    ∃ m1, Decode m r = .ok ((order m).getD r.toNat 0, m1) ∧
      order m1 = (order m).getD r.toNat 0 :: (order m).eraseIdx r.toNat := by
  obtain ⟨m1, e, -, -, ho⟩ := hwf.decode_order r.toNat (by omega)
  rw [Int.toNat_of_nonneg h0] at e
  exact ⟨by simp [order, posOrder], m1, e, ho⟩

theorem Decode_move_to_front_witness :
    WellFormed abc ∧ (order abc).length = abc.symbols.length ∧
      ∃ m1, Decode abc 2 = .ok ((order abc).getD (2 : Int).toNat 0, m1) ∧
        order m1 = (order abc).getD (2 : Int).toNat 0 :: (order abc).eraseIdx (2 : Int).toNat :=
  ⟨by decide, Decode_move_to_front abc 2 (by decide) (by decide) (by decide)⟩

/-- C2: round trip with the reference encoder. For an alphabet of at most 256
distinct bytes and a byte sequence drawn from it, feeding the encoder's ranks
one by one to `Decode` on the decoder built by `newMTFDecoder` returns the
original sequence. -/
theorem decode_encode_roundtrip (alphabet bs : List Nat) (hnd : alphabet.Nodup)
    (h256 : alphabet.length ≤ 256) (hbs : ∀ b ∈ bs, b ∈ alphabet) :
    ∃ m0 m1, newMTFDecoder alphabet = .ok m0 ∧
      decodeAll m0 ((mtfEncode alphabet bs).map Int.ofNat) = .ok (bs, m1) := by
  rw [newMTFDecoder_ok alphabet h256]
  by_cases hpos : 0 < alphabet.length
  · have hc := Cyc.init alphabet hpos
    have hm : (List.range alphabet.length).map (fun i => alphabet.getD i 0) = alphabet :=
      map_range_getD alphabet
    obtain ⟨m1, e⟩ := Cyc.roundtrip bs _ _ hc
      (by show ((List.range alphabet.length).map (fun i => alphabet.getD i 0)).Nodup
          rw [hm]; exact hnd)
      (by show ∀ b ∈ bs, b ∈ (List.range alphabet.length).map (fun i => alphabet.getD i 0)
          rw [hm]; exact hbs)
    replace e : decodeAll _ ((mtfEncode ((List.range alphabet.length).map
        (fun i => alphabet.getD i 0)) bs).map Int.ofNat) = .ok (bs, m1) := e
    rw [hm] at e
    exact ⟨_, m1, rfl, e⟩
  · have ha : alphabet = [] := List.length_eq_zero.mp (by omega)
    subst ha
    cases bs with
    | nil => exact ⟨_, _, rfl, rfl⟩
    | cons b bs => exact absurd (hbs b (List.mem_cons_self _ _)) (List.not_mem_nil _)

theorem decode_encode_roundtrip_witness :
    ∃ m0 m1, newMTFDecoder [10, 20, 30] = .ok m0 ∧
      decodeAll m0 ((mtfEncode [10, 20, 30] [30, 30, 10, 20]).map Int.ofNat) =
        .ok ([30, 30, 10, 20], m1) :=
  decode_encode_roundtrip [10, 20, 30] [30, 30, 10, 20] (by decide) (by decide) (by decide)

/-- C3: initial recency order. For a symbol list `s` of length `1 ≤ n ≤ 256`,
the decoder built by `newMTFDecoder s` has recency order `s`: `First` returns
`s[0]` and `Decode r` on the fresh decoder returns `s[r]` for every `r < n`. -/
theorem newMTFDecoder_initial_order (s : List Nat) (r : Nat) (h1 : 1 ≤ s.length)
    (h256 : s.length ≤ 256) (hr : r < s.length) :
    ∃ m, newMTFDecoder s = .ok m ∧ order m = s ∧ First m = .ok (s[0], m) ∧
      ∃ m1, Decode m (r : Int) = .ok (s[r], m1) := by
  have hc := Cyc.init s h1
  refine ⟨_, newMTFDecoder_ok s h256, ?_, ?_, ?_⟩
  · rw [hc.order_eq]; exact map_range_getD s
  · have hf := First_ok
      { symbols := s, next := initNext s.length, prev := initPrev s.length, head := 0 } h1
    rw [hf]
    show Except.ok (s.getD 0 0, _) = _
    rw [List.getD_eq_getElem _ 0 h1]
  · obtain ⟨m1, e, -, -⟩ := hc.decode r hr
    refine ⟨m1, ?_⟩
    rw [e]
    have hg : (List.range s.length).getD r 0 = r := by
      rw [List.getD_eq_getElem _ 0 (by simpa using hr)]; simp
    show Except.ok (s.getD ((List.range s.length).getD r 0) 0, m1) = _
    rw [hg, List.getD_eq_getElem _ 0 hr]

theorem newMTFDecoder_initial_order_witness :
    ∃ m, newMTFDecoder [10, 20, 30] = .ok m ∧ order m = [10, 20, 30] ∧
      First m = .ok (10, m) ∧ ∃ m1, Decode m ((2 : Nat) : Int) = .ok (30, m1) :=
  newMTFDecoder_initial_order [10, 20, 30] 2 (by decide) (by decide) (by decide)

/-- C4: promotion law. On a well-formed decoder, `Decode r` with `0 ≤ r < n`
returns a byte `b` and leaves `head` at a valid position holding `b`, so
`First` and an immediately following `Decode 0` both return `b`. -/
theorem Decode_promotes (m : moveToFrontDecoder) (r : Int) (hwf : WellFormed m)
    (h0 : 0 ≤ r) (hr : r < m.symbols.length) :
    ∃ b m1, Decode m r = .ok (b, m1) ∧ m1.head < m1.symbols.length ∧
      m1.symbols.getD m1.head 0 = b ∧ First m1 = .ok (b, m1) ∧
      Decode m1 0 = .ok (b, m1) := by
  obtain ⟨m1, e, hs, hc1⟩ := hwf.cyc.decode r.toNat (by omega)
  rw [Int.toNat_of_nonneg h0] at e
  have hh : (posOrder m).getD r.toNat 0 = m1.head := hc1.head_eq
  have hb : m1.symbols.getD m1.head 0 = m.symbols.getD ((posOrder m).getD r.toNat 0) 0 := by
    rw [hs, hh]
  refine ⟨_, m1, e, hc1.head_lt, hb, ?_, ?_⟩
  · rw [← hb]; exact First_ok m1 hc1.head_lt
  · rw [← hb]; exact Decode_zero m1 hc1.head_lt

theorem Decode_promotes_witness :
    ∃ b m1, Decode abc 2 = .ok (b, m1) ∧ m1.head < m1.symbols.length ∧
      m1.symbols.getD m1.head 0 = b ∧ First m1 = .ok (b, m1) ∧
      Decode m1 0 = .ok (b, m1) :=
  Decode_promotes abc 2 (by decide) (by decide) (by decide)

/-- C5: permutation preservation. On a well-formed decoder, any finite
sequence of `Decode` calls with ranks in `0..n-1` runs to the end, and the
recency order afterwards is a permutation of the recency order before. -/
theorem decodeAll_order_perm (m : moveToFrontDecoder) (rs : List Int) (hwf : WellFormed m)
    (hrs : ∀ r ∈ rs, 0 ≤ r ∧ r < m.symbols.length) :
    ∃ bs m1, decodeAll m rs = .ok (bs, m1) ∧ (order m1).Perm (order m) := by
  obtain ⟨bs, m1, l1, e, hs, hc1, hp⟩ := Cyc.decodeAll rs m _ hwf.cyc hrs
  refine ⟨bs, m1, e, ?_⟩
  rw [hc1.order_eq, hs]
  exact hp.map _

theorem decodeAll_order_perm_witness :
    ∃ bs m1, decodeAll abc [0, 2, 0, 1] = .ok (bs, m1) ∧ (order m1).Perm (order abc) :=
  decodeAll_order_perm abc [0, 2, 0, 1] (by decide) (by decide)

/-- C6: identity on rank 0. On a decoder with `head < n`, `Decode 0` returns
the same byte as `First`, namely `symbols[head]`, and leaves the decoder as it
was; so does any number of repeated `Decode 0` calls. -/
theorem Decode_zero_identity (m : moveToFrontDecoder) (h : m.head < m.symbols.length) :
    Decode m 0 = First m ∧ Decode m 0 = .ok (m.symbols[m.head], m) ∧
      ∀ k, decodeAll m (List.replicate k 0) = .ok (List.replicate k m.symbols[m.head], m) := by
  have e : Decode m 0 = .ok (m.symbols[m.head], m) := by
    rw [Decode_zero m h, List.getD_eq_getElem _ 0 h]
  refine ⟨by rw [Decode_zero m h, First_ok m h], e, fun k => ?_⟩
  induction k with
  | zero => rfl
  | succ k ih =>
    simp only [List.replicate_succ, decodeAll, e, ih, bind, Except.bind, pure, Except.pure]

theorem Decode_zero_identity_witness :
    Decode abc 0 = First abc ∧ Decode abc 0 = .ok (10, abc) ∧
      ∀ k, decodeAll abc (List.replicate k 0) = .ok (List.replicate k 10, abc) :=
  Decode_zero_identity abc (by decide)

/-- C7: construction fails exactly on oversize alphabets. `newMTFDecoder s`
panics iff `len s > 256` and returns a decoder iff `len s ≤ 256`;
`newMTFDecoderWithRange n` with `n ≥ 0` panics iff `n > 256` and returns a
decoder iff `n ≤ 256`. -/
theorem constructors_fail_iff_oversize (s : List Nat) (n : Int) (hn : 0 ≤ n) :
    ((∃ e, newMTFDecoder s = .error e) ↔ 256 < s.length) ∧
    ((∃ m, newMTFDecoder s = .ok m) ↔ s.length ≤ 256) ∧
    ((∃ e, newMTFDecoderWithRange n = .error e) ↔ 256 < n) ∧
    ((∃ m, newMTFDecoderWithRange n = .ok m) ↔ n ≤ 256) := by
  have a1 : 256 < s.length → newMTFDecoder s = .error .tooManySymbols := by
    intro h; unfold newMTFDecoder; rw [if_pos h]
  have a2 : 256 < n → newMTFDecoderWithRange n = .error .rangeTooLarge := by
    intro h; unfold newMTFDecoderWithRange; rw [if_pos h]
  refine ⟨⟨?_, fun h => ⟨_, a1 h⟩⟩, ⟨?_, fun h => ⟨_, newMTFDecoder_ok s h⟩⟩,
    ⟨?_, fun h => ⟨_, a2 h⟩⟩, ⟨?_, fun h => ⟨_, newMTFDecoderWithRange_ok n hn h⟩⟩⟩
  · rintro ⟨e, he⟩
    by_contra hc
    rw [newMTFDecoder_ok s (by omega)] at he
    cases he
  · rintro ⟨m, hm⟩
    by_contra hc
    rw [a1 (by omega)] at hm
    cases hm
  · rintro ⟨e, he⟩
    by_contra hc
    rw [newMTFDecoderWithRange_ok n hn (by omega)] at he
    cases he
  · rintro ⟨m, hm⟩
    by_contra hc
    rw [a2 (by omega)] at hm
    cases hm

theorem constructors_fail_iff_oversize_witness :
    ((∃ e, newMTFDecoder (List.replicate 257 0) = .error e) ↔
        256 < (List.replicate 257 0).length) ∧
    ((∃ m, newMTFDecoder (List.replicate 257 0) = .ok m) ↔
        (List.replicate 257 0).length ≤ 256) ∧
    ((∃ e, newMTFDecoderWithRange 256 = .error e) ↔ (256 : Int) < 256) ∧
    ((∃ m, newMTFDecoderWithRange 256 = .ok m) ↔ (256 : Int) ≤ 256) :=
  constructors_fail_iff_oversize (List.replicate 257 0) 256 (by decide)

/-- C8: the range constructor equals the explicit constructor on the identity
alphabet. For every `0 ≤ n ≤ 256`, zero included, `newMTFDecoderWithRange n`
returns the very decoder that `newMTFDecoder [0, 1, …, n-1]` returns, and its
symbols are `0, 1, …, n-1`: `symbols[i] = i` for every `i < n`, with no byte
truncated. -/
theorem range_constructor_eq_explicit (n : Int) (h0 : 0 ≤ n) (h : n ≤ 256) :
    newMTFDecoderWithRange n = newMTFDecoder (List.range n.toNat) ∧
    ∃ m, newMTFDecoderWithRange n = .ok m ∧ newMTFDecoder (List.range n.toNat) = .ok m ∧
      m.symbols = List.range n.toNat ∧ m.symbols.length = n.toNat ∧
      ∀ i, i < n.toNat → m.symbols.getD i 0 = i := by
  have e1 := newMTFDecoderWithRange_ok n h0 h
  have e2 := newMTFDecoder_ok (List.range n.toNat) (by simp; omega)
  rw [List.length_range] at e2
  refine ⟨e1.trans e2.symm, _, e1, e2, rfl, List.length_range _, fun i hi => ?_⟩
  show (List.range n.toNat).getD i 0 = i
  rw [List.getD_eq_getElem _ 0 (by simpa using hi)]
  simp

theorem range_constructor_eq_explicit_witness :
    newMTFDecoderWithRange 256 = newMTFDecoder (List.range (256 : Int).toNat) ∧
    ∃ m, newMTFDecoderWithRange 256 = .ok m ∧
      newMTFDecoder (List.range (256 : Int).toNat) = .ok m ∧
      m.symbols = List.range (256 : Int).toNat ∧ m.symbols.length = (256 : Int).toNat ∧
      ∀ i, i < (256 : Int).toNat → m.symbols.getD i 0 = i :=
  range_constructor_eq_explicit 256 (by decide) (by decide)

/-- C9: `First` is a total, non-mutating peek. On a decoder with `head < n`,
`First` succeeds, returns `symbols[head]`, and leaves the decoder unchanged. -/
theorem First_total (m : moveToFrontDecoder) (h : m.head < m.symbols.length) :
    First m = .ok (m.symbols[m.head], m) := by
  rw [First_ok m h, List.getD_eq_getElem _ 0 h]

theorem First_total_witness : First abc = .ok (10, abc) :=
  First_total abc (by decide)

/-- C10: an out-of-range rank wraps instead of failing. On a well-formed
decoder with `n` symbols, `Decode r` for `r ≥ n` does not panic and returns
the symbol that was at rank `r mod n` of the recency order before the call. -/
theorem Decode_out_of_range_wraps (m : moveToFrontDecoder) (r : Int) (hwf : WellFormed m)
    (hr : (m.symbols.length : Int) ≤ r) :
    r.toNat % m.symbols.length < (order m).length ∧
    ∃ m1, Decode m r = .ok ((order m).getD (r.toNat % m.symbols.length) 0, m1) := by
  have hc := hwf.cyc
  have hlt : r.toNat % m.symbols.length < m.symbols.length := Nat.mod_lt _ hc.pos
  have hpos : 0 < r := by have := hc.pos; omega
  refine ⟨by simpa [order, posOrder] using hlt,
    relink m ((posOrder m).getD (r.toNat % m.symbols.length) 0), ?_⟩
  rw [hc.decode_walk r hpos]
  unfold order
  rw [getD_map_lt _ _ _ (by rw [hc.len_l]; exact hlt)]

theorem Decode_out_of_range_wraps_witness :
    (7 : Int).toNat % abc.symbols.length < (order abc).length ∧
    ∃ m1, Decode abc 7 = .ok ((order abc).getD ((7 : Int).toNat % abc.symbols.length) 0, m1) :=
  Decode_out_of_range_wraps abc 7 (by decide) (by decide)

/-- C11: the empty alphabet. Both constructors accept size zero and return the
decoder with empty `symbols`, `next`, `prev` and `head = 0`; on it `Decode r`,
for every integer `r`, and `First` panic with an index out of range. -/
theorem empty_alphabet_decoder :
    newMTFDecoder [] = .ok emptyDecoder ∧ newMTFDecoderWithRange 0 = .ok emptyDecoder ∧
    emptyDecoder.symbols = [] ∧ emptyDecoder.next = [] ∧ emptyDecoder.prev = [] ∧
    emptyDecoder.head = 0 ∧
    (∀ r : Int, Decode emptyDecoder r = .error .indexOutOfRange) ∧
    First emptyDecoder = .error .indexOutOfRange := by
  refine ⟨rfl, rfl, rfl, rfl, rfl, rfl, fun r => ?_, rfl⟩
  by_cases hr : r = 0
  · subst hr; rfl
  · unfold Decode
    rw [if_neg hr]
    cases r.toNat with
    | zero => rfl
    | succ k => rfl

/-- C12: the concrete scenario. On `newMTFDecoder [a, b, c]` the calls
`Decode 0`, `Decode 2`, `Decode 0`, `Decode 1` return `a`, `c`, `c`, `a`, and
the recency order after each call is `[a, b, c]`, `[c, a, b]`, `[c, a, b]`,
`[a, c, b]`. -/
theorem scenario_abc (a b c : Nat) :
    ∃ m0 m1 m2 m3 m4, newMTFDecoder [a, b, c] = .ok m0 ∧
      Decode m0 0 = .ok (a, m1) ∧ order m1 = [a, b, c] ∧
      Decode m1 2 = .ok (c, m2) ∧ order m2 = [c, a, b] ∧
      Decode m2 0 = .ok (c, m3) ∧ order m3 = [c, a, b] ∧
      Decode m3 1 = .ok (a, m4) ∧ order m4 = [a, c, b] :=
  ⟨{ symbols := [a, b, c], next := [1, 2, 0], prev := [2, 0, 1], head := 0 },
   { symbols := [a, b, c], next := [1, 2, 0], prev := [2, 0, 1], head := 0 },
   { symbols := [a, b, c], next := [1, 2, 0], prev := [2, 0, 1], head := 2 },
   { symbols := [a, b, c], next := [1, 2, 0], prev := [2, 0, 1], head := 2 },
   { symbols := [a, b, c], next := [2, 0, 1], prev := [1, 2, 0], head := 0 },
   rfl, rfl, rfl, rfl, rfl, rfl, rfl, rfl, rfl⟩

/-- C13: size and alphabet are fixed. Whenever `Decode r` returns, for any
decoder and any rank, `symbols` is unchanged and `symbols`, `next` and `prev`
have the lengths they had before: `Decode` writes only to `next`, `prev` and
`head`. -/
theorem Decode_keeps_size_and_symbols (m m1 : moveToFrontDecoder) (r : Int) (b : Nat)
    (h : Decode m r = .ok (b, m1)) :
    m1.symbols = m.symbols ∧ m1.symbols.length = m.symbols.length ∧
      m1.next.length = m.next.length ∧ m1.prev.length = m.prev.length := by
  obtain ⟨hs, hn, hp⟩ := Decode_frame h
  exact ⟨hs, by rw [hs], hn, hp⟩

theorem Decode_keeps_size_and_symbols_witness :
    Decode abc 1 = .ok (20, { abc with next := [2, 0, 1], prev := [1, 2, 0], head := 1 }) ∧
    ({ abc with next := [2, 0, 1], prev := [1, 2, 0], head := 1 } :
        moveToFrontDecoder).symbols = abc.symbols ∧
    ({ abc with next := [2, 0, 1], prev := [1, 2, 0], head := 1 } :
        moveToFrontDecoder).symbols.length = abc.symbols.length ∧
    ({ abc with next := [2, 0, 1], prev := [1, 2, 0], head := 1 } :
        moveToFrontDecoder).next.length = abc.next.length ∧
    ({ abc with next := [2, 0, 1], prev := [1, 2, 0], head := 1 } :
        moveToFrontDecoder).prev.length = abc.prev.length :=
  ⟨rfl, Decode_keeps_size_and_symbols abc _ 1 20 rfl⟩

/-- C14: the list invariant is established and preserved under valid ranks.
For every size `1 ≤ n ≤ 256` both constructors return a decoder satisfying
(i) `head` and all links below `n`, (ii) `next` and `prev` mutually inverse,
(iii) `next` visits all `n` positions once from any start before returning;
and `Decode r` with `0 ≤ r < n` on a decoder satisfying (i)-(iii) returns a
decoder satisfying them again. -/
theorem list_invariant_established_and_preserved (s : List Nat) (m : moveToFrontDecoder)
    (r : Int) (h1 : 1 ≤ s.length) (h256 : s.length ≤ 256) (hinv : ListInv m)
    (h0 : 0 ≤ r) (hr : r < m.symbols.length) :
    (∃ m0, newMTFDecoder s = .ok m0 ∧ ListInv m0) ∧
    (∃ m0, newMTFDecoderWithRange s.length = .ok m0 ∧ ListInv m0) ∧
    ∃ b m1, Decode m r = .ok (b, m1) ∧ ListInv m1 := by
  refine ⟨⟨_, newMTFDecoder_ok s h256, (Cyc.init s h1).listInv⟩, ?_, ?_⟩
  · refine ⟨_, newMTFDecoderWithRange_ok s.length (by omega) (by omega), ?_⟩
    have hc := Cyc.init (List.range s.length) (by simpa using h1)
    rw [List.length_range] at hc
    rw [Int.toNat_ofNat]
    exact hc.listInv
  · obtain ⟨m1, e, -, hc1⟩ := hinv.to_cyc.decode r.toNat (by omega)
    rw [Int.toNat_of_nonneg h0] at e
    exact ⟨_, m1, e, hc1.listInv⟩

theorem list_invariant_established_and_preserved_witness :
    (∃ m0, newMTFDecoder [10, 20, 30] = .ok m0 ∧ ListInv m0) ∧
    (∃ m0, newMTFDecoderWithRange ([10, 20, 30].length : Nat) = .ok m0 ∧ ListInv m0) ∧
    ∃ b m1, Decode abc 2 = .ok (b, m1) ∧ ListInv m1 :=
  list_invariant_established_and_preserved [10, 20, 30] abc 2 (by decide) (by decide)
    (by decide) (by decide) (by decide)

/-- C15, as stated, fails: on the well-formed three-symbol decoder `Decode 3`
(a positive multiple of `n`) returns, but afterwards `next[prev[1]] ≠ 1`, so the
links are no longer mutually inverse. -/
theorem Decode_multiple_of_n_breaks_invariant :
    WellFormed abc ∧ 1 ≤ abc.symbols.length ∧ (0 : Int) < 3 ∧
    Decode abc 3 = .ok (10, { abc with next := [0, 2, 0], prev := [0, 2, 1] }) ∧
    ¬ (LinksInverse { abc with next := [0, 2, 0], prev := [0, 2, 1] } ∧
       SingleCycle { abc with next := [0, 2, 0], prev := [0, 2, 1] }) :=
  ⟨by decide, by decide, by decide, rfl, by decide⟩

/-- C15, amended: on a well-formed decoder with `n ≥ 1` symbols, for every rank
`r > 0` that is not a multiple of `n` (or any `r > 0` when `n = 1`), `Decode r`
returns and the state afterwards is again a valid circular list: `next` and
`prev` are mutually inverse and the positions form one cycle under `next`. -/
theorem Decode_nonmultiple_keeps_invariant (m : moveToFrontDecoder) (r : Int)
    (hwf : WellFormed m) (hr : 0 < r)
    (hnm : m.symbols.length = 1 ∨ r % (m.symbols.length : Int) ≠ 0) :
    ∃ b m1, Decode m r = .ok (b, m1) ∧ LinksInverse m1 ∧ SingleCycle m1 := by
  have hc := hwf.cyc
  by_cases hmod : r % (m.symbols.length : Int) = 0
  · have hn1 : m.symbols.length = 1 := hnm.resolve_right (fun h => h hmod)
    have hh : m.head = 0 := by have := hc.head_lt; omega
    have en : m.next.getD m.head 0 = m.head := by
      have := hc.bounded_next.2 _ hc.head_lt; omega
    have ep : m.prev.getD m.head 0 = m.head := by
      have := hc.bounded_prev.2 _ hc.head_lt; omega
    have hinv := hc.listInv
    exact ⟨_, m, Decode_self_loop m hc.bounded_next hc.bounded_prev hc.head_lt en ep r,
      hinv.2.2.2.1, hinv.2.2.2.2⟩
  · have hr0 : 0 < r.toNat % m.symbols.length := by
      have := (toNat_mod_eq_zero r m.symbols.length (by omega)).not.mpr hmod
      omega
    have hinv := (hc.relink _ hr0 (Nat.mod_lt _ hc.pos)).listInv
    exact ⟨_, _, hc.decode_walk r hr, hinv.2.2.2.1, hinv.2.2.2.2⟩

theorem Decode_nonmultiple_keeps_invariant_witness :
    ∃ b m1, Decode abc 5 = .ok (b, m1) ∧ LinksInverse m1 ∧ SingleCycle m1 :=
  Decode_nonmultiple_keeps_invariant abc 5 (by decide) (by decide) (by decide)

/-- C16: the initial threading with 8-bit indices is exact. For `1 ≤ n ≤ 256`
either constructor leaves `head = 0`, `next[i] = (i + 1) mod n` and
`prev[i] = (i + n - 1) mod n` for every `i < n`, untruncated; in particular
`prev[0] = n - 1` and `next[n - 1] = 0`, also for `n = 256`. -/
theorem threading_exact (s : List Nat) (i : Nat) (h1 : 1 ≤ s.length)
    (h256 : s.length ≤ 256) (hi : i < s.length) :
    (∃ m, newMTFDecoder s = .ok m ∧ m.head = 0 ∧
      m.next.getD i 0 = (i + 1) % s.length ∧
      m.prev.getD i 0 = (i + s.length - 1) % s.length ∧
      m.prev.getD 0 0 = s.length - 1 ∧ m.next.getD (s.length - 1) 0 = 0) ∧
    (∃ m, newMTFDecoderWithRange s.length = .ok m ∧ m.head = 0 ∧
      m.next.getD i 0 = (i + 1) % s.length ∧
      m.prev.getD i 0 = (i + s.length - 1) % s.length ∧
      m.prev.getD 0 0 = s.length - 1 ∧ m.next.getD (s.length - 1) 0 = 0) := by
  have a1 : (initNext s.length).getD i 0 = (i + 1) % s.length := by
    rw [getD_initNext _ _ hi]
    by_cases hc : i + 1 = s.length
    · rw [if_pos hc, hc, Nat.mod_self]
    · rw [if_neg hc, Nat.mod_eq_of_lt (by omega)]
  have a2 : (initPrev s.length).getD i 0 = (i + s.length - 1) % s.length := by
    rw [getD_initPrev _ _ hi]
    by_cases hc : i = 0
    · rw [if_pos hc, hc, Nat.zero_add, Nat.mod_eq_of_lt (by omega)]
    · rw [if_neg hc]
      have : i + s.length - 1 = (i - 1) + s.length := by omega
      rw [this, Nat.add_mod_right, Nat.mod_eq_of_lt (by omega)]
  have a3 : (initPrev s.length).getD 0 0 = s.length - 1 := by
    rw [getD_initPrev _ _ (by omega), if_pos rfl]
  have a4 : (initNext s.length).getD (s.length - 1) 0 = 0 := by
    rw [getD_initNext _ _ (by omega), if_pos (by omega)]
  refine ⟨⟨_, newMTFDecoder_ok s h256, rfl, a1, a2, a3, a4⟩,
    ⟨_, newMTFDecoderWithRange_ok s.length (by omega) (by omega), rfl, ?_, ?_, ?_, ?_⟩⟩
  · show (initNext (s.length : Int).toNat).getD i 0 = _
    rw [Int.toNat_ofNat]; exact a1
  · show (initPrev (s.length : Int).toNat).getD i 0 = _
    rw [Int.toNat_ofNat]; exact a2
  · show (initPrev (s.length : Int).toNat).getD 0 0 = _
    rw [Int.toNat_ofNat]; exact a3
  · show (initNext (s.length : Int).toNat).getD (s.length - 1) 0 = _
    rw [Int.toNat_ofNat]; exact a4

theorem threading_exact_witness :
    (∃ m, newMTFDecoder (List.replicate 256 7) = .ok m ∧ m.head = 0 ∧
      m.next.getD 255 0 = (255 + 1) % (List.replicate 256 7).length ∧
      m.prev.getD 255 0 = (255 + (List.replicate 256 7).length - 1) %
        (List.replicate 256 7).length ∧
      m.prev.getD 0 0 = (List.replicate 256 7).length - 1 ∧
      m.next.getD ((List.replicate 256 7).length - 1) 0 = 0) ∧
    (∃ m, newMTFDecoderWithRange (List.replicate 256 7).length = .ok m ∧ m.head = 0 ∧
      m.next.getD 255 0 = (255 + 1) % (List.replicate 256 7).length ∧
      m.prev.getD 255 0 = (255 + (List.replicate 256 7).length - 1) %
        (List.replicate 256 7).length ∧
      m.prev.getD 0 0 = (List.replicate 256 7).length - 1 ∧
      m.next.getD ((List.replicate 256 7).length - 1) 0 = 0) :=
  threading_exact (List.replicate 256 7) 255 (by rw [List.length_replicate]; decide)
    (by rw [List.length_replicate]) (by rw [List.length_replicate]; decide)

/-- C17: decoding the last rank is a pure rotation. On a well-formed decoder
with `n ≥ 2` symbols, `Decode (n - 1)` returns `symbols[prev[head]]`, leaves
`next` and `prev` element for element as they were, and sets `head` to the old
`prev[head]`. -/
theorem Decode_last_rank_rotates (m : moveToFrontDecoder) (hwf : WellFormed m)
    (h2 : 2 ≤ m.symbols.length) :
    ∃ m1, Decode m ((m.symbols.length : Int) - 1) =
        .ok (m.symbols.getD (m.prev.getD m.head 0) 0, m1) ∧
      m1.next = m.next ∧ m1.prev = m.prev ∧ m1.head = m.prev.getD m.head 0 ∧
      m1.symbols = m.symbols := by
  have hc := hwf.cyc
  obtain ⟨ex, en, ep⟩ := hc.relink_last h2
  have hd := hc.decode_walk ((m.symbols.length : Int) - 1) (by omega)
  have ht : ((m.symbols.length : Int) - 1).toNat % m.symbols.length =
      m.symbols.length - 1 := by
    rw [Nat.mod_eq_of_lt (by omega)]; omega
  rw [ht] at hd
  refine ⟨_, ?_, en, ep, ex, rfl⟩
  rw [hd, ex]

theorem Decode_last_rank_rotates_witness :
    ∃ m1, Decode abc ((abc.symbols.length : Int) - 1) =
        .ok (abc.symbols.getD (abc.prev.getD abc.head 0) 0, m1) ∧
      m1.next = abc.next ∧ m1.prev = abc.prev ∧ m1.head = abc.prev.getD abc.head 0 ∧
      m1.symbols = abc.symbols :=
  Decode_last_rank_rotates abc (by decide) (by decide)

/-- C18: a non-zero rank that lands on the head collapses the list. On a
well-formed decoder with `n ≥ 2` symbols, for `r` negative or a positive
multiple of `n`, `Decode r` returns `symbols[head]` and keeps `head`, but leaves
`next[head] = head` and `prev[head] = head` while the `next` of another position
also points to `head`; from then on `Decode k`, for every integer `k`, returns
that same symbol and changes nothing. -/
theorem Decode_on_head_collapses (m : moveToFrontDecoder) (r : Int) (hwf : WellFormed m)
    (h2 : 2 ≤ m.symbols.length)
    (hr : r < 0 ∨ (0 < r ∧ r % (m.symbols.length : Int) = 0)) :
    ∃ m1, Decode m r = .ok (m.symbols.getD m.head 0, m1) ∧ m1.head = m.head ∧
      m1.next.getD m.head 0 = m.head ∧ m1.prev.getD m.head 0 = m.head ∧
      (∃ j, j < m.symbols.length ∧ j ≠ m.head ∧ m1.next.getD j 0 = m.head) ∧
      ∀ k : Int, Decode m1 k = .ok (m.symbols.getD m.head 0, m1) := by
  have hc := hwf.cyc
  obtain ⟨b1, b2, en, ep, hpl, hpn, hpp⟩ := hc.relink_head h2
  have hwalk : (fun k => m.next.getD k 0)^[r.toNat] m.head = m.head := by
    rcases hr with hneg | ⟨hpos, hmod⟩
    · have : r.toNat = 0 := by omega
      rw [this]; rfl
    · have hz := (toNat_mod_eq_zero r m.symbols.length (by omega)).mpr hmod
      have := hc.iterate_next r.toNat 0 hc.pos
      rw [hc.head_eq, Nat.zero_add, hz, hc.head_eq] at this
      exact this
  have hd := Decode_eq_relink m r (by omega) hc.bounded_next hc.bounded_prev hc.head_lt
  rw [hwalk] at hd
  exact ⟨relink m m.head, hd, rfl, en, ep, ⟨_, hpl, hpn, hpp⟩,
    Decode_self_loop (relink m m.head) b1 b2 hc.head_lt en ep⟩

theorem Decode_on_head_collapses_witness :
    ∃ m1, Decode abc 3 = .ok (abc.symbols.getD abc.head 0, m1) ∧ m1.head = abc.head ∧
      m1.next.getD abc.head 0 = abc.head ∧ m1.prev.getD abc.head 0 = abc.head ∧
      (∃ j, j < abc.symbols.length ∧ j ≠ abc.head ∧ m1.next.getD j 0 = abc.head) ∧
      ∀ k : Int, Decode m1 k = .ok (abc.symbols.getD abc.head 0, m1) :=
  Decode_on_head_collapses abc 3 (by decide) (by decide) (by decide)

/-- C19: a single-symbol alphabet is a fixed point. The decoder built from
`[s]` has `head = 0` and `next[0] = prev[0] = 0`, and `Decode r` on it, for
every integer `r`, returns `s` and leaves the decoder unchanged. -/
theorem single_symbol_fixed_point (s : Nat) (r : Int) :
    newMTFDecoder [s] = .ok { symbols := [s], next := [0], prev := [0], head := 0 } ∧
    Decode { symbols := [s], next := [0], prev := [0], head := 0 } r =
      .ok (s, { symbols := [s], next := [0], prev := [0], head := 0 }) := by
  refine ⟨rfl, ?_⟩
  have hb : Bounded [0] 1 := ⟨rfl, fun i hi => by
    have : i = 0 := by omega
    subst this; decide⟩
  exact Decode_self_loop { symbols := [s], next := [0], prev := [0], head := 0 }
    hb hb Nat.zero_lt_one rfl rfl r

end MTF
